import Mathlib

/-!
Verification development for the resonance-enumeration core of the
`autochem` repository (`automol/graph/base/_res.py`).

The Python code works with mutable dictionaries and sets that are aliased
and selectively copied at branch points of a recursive search.  To embed it
faithfully we model the mutable objects through explicit heaps: a machine
state holds a heap of "seen" sets, a heap of bond-order dictionaries, a heap
of atom-unsaturation dictionaries, the accumulating result list (a list of
bond-dictionary object ids, mirroring the fact that Python appends object
references), and the shared best-spin bound `spin_min`.

Python sets of small integers are modelled as strictly sorted `List Nat`
values; dictionaries are modelled as key-sorted association lists.  The
nondeterministic iteration order of `list(set(...))` is modelled as
first-occurrence deduplication of the `itertools` enumeration order.
-/

namespace AutoChem

/-- Insert a number into a strictly sorted list, keeping it sorted and
duplicate-free.  This is the canonical-form builder for Python sets. -/
def insS (x : Nat) : List Nat → List Nat
  | [] => [x]
  | y :: ys => if x < y then x :: y :: ys else if x = y then y :: ys else y :: insS x ys

/-- Union of a canonical set with the elements of a further list. -/
def unionS (l : List Nat) (e : List Nat) : List Nat :=
  e.foldl (fun acc z => insS z acc) l

/-- Canonical (sorted, duplicate-free) form of a list of naturals. -/
def sortCanon (l : List Nat) : List Nat := unionS [] l

/-- Set difference `l - rem` on canonical lists (models Python set `-`). -/
def diffS (l rem : List Nat) : List Nat := l.filter (fun x => decide (x ∉ rem))

/-- Bond keys: Python `frozenset({a, b})` is modelled as the ordered pair. -/
abbrev BndK := Nat × Nat

/-- Build the canonical bond key for the unordered atom pair `{a, b}`. -/
def mkB (a b : Nat) : BndK := if a ≤ b then (a, b) else (b, a)

/-- Lookup in an atom-unsaturation association list (missing key ↦ 0). -/
def agetA (m : List (Nat × Int)) (k : Nat) : Int :=
  match m with
  | [] => 0
  | p :: ps => if p.1 = k then p.2 else agetA ps k

/-- In-place style update of an atom-unsaturation association list. -/
def asetA (m : List (Nat × Int)) (k : Nat) (v : Int) : List (Nat × Int) :=
  match m with
  | [] => [(k, v)]
  | p :: ps => if p.1 = k then (k, v) :: ps else p :: asetA ps k v

/-- `m[k] += d` on an atom-unsaturation association list. -/
def aincr (m : List (Nat × Int)) (k : Nat) (d : Int) : List (Nat × Int) :=
  asetA m k (agetA m k + d)

/-- `sum(m.values())` for an atom-unsaturation association list. -/
def asumA (m : List (Nat × Int)) : Int := m.foldl (fun s p => s + p.2) 0

/-- Lookup in a bond-order association list (missing key ↦ 0). -/
def bgetB (m : List (BndK × Nat)) (b : BndK) : Nat :=
  match m with
  | [] => 0
  | p :: ps => if p.1 = b then p.2 else bgetB ps b

/-- In-place style update of a bond-order association list. -/
def bsetB (m : List (BndK × Nat)) (b : BndK) (v : Nat) : List (BndK × Nat) :=
  match m with
  | [] => [(b, v)]
  | p :: ps => if p.1 = b then (b, v) :: ps else p :: bsetB ps b v

/-- `m[b] += d` on a bond-order association list. -/
def bincrB (m : List (BndK × Nat)) (b : BndK) (d : Nat) : List (BndK × Nat) :=
  bsetB m b (bgetB m b + d)

/-- All `k`-element combinations of a list, in `itertools.combinations`
order (selection by position, lexicographic in the positions). -/
def combinations : Nat → List Nat → List (List Nat)
  | 0, _ => [[]]
  | _ + 1, [] => []
  | k + 1, x :: xs => (combinations k xs).map (fun c => x :: c) ++ combinations (k + 1) xs

/-- First-occurrence deduplication; models the `list(set(...))` step of the
source (whose order is implementation defined). -/
def dedupF (l : List (List Nat)) : List (List Nat) :=
  l.foldl (fun acc x => if x ∈ acc then acc else acc ++ [x]) []

/-- Machine state for the enumerator: heaps of seen-set objects, bond-order
dictionary objects and unsaturation dictionary objects, the result list of
bond-dictionary object ids (`bord_dcts` holds references in Python), and the
shared bound `spin_min`. -/
structure MState where
  sh : List (List Nat)
  bh : List (List (BndK × Nat))
  ah : List (List (Nat × Int))
  res : List Nat
  smin : Int
deriving Repr, DecidableEq

/-- Read a seen-set object from the heap. -/
def getS (st : MState) (i : Nat) : List Nat := (st.sh[i]?).getD []

/-- Write a seen-set object to the heap. -/
def setSh (st : MState) (i : Nat) (v : List Nat) : MState :=
  { st with sh := st.sh.set i v }

/-- Read a bond-order dictionary object from the heap. -/
def getB (st : MState) (i : Nat) : List (BndK × Nat) := (st.bh[i]?).getD []

/-- Write a bond-order dictionary object to the heap. -/
def setBh (st : MState) (i : Nat) (v : List (BndK × Nat)) : MState :=
  { st with bh := st.bh.set i v }

/-- Read an unsaturation dictionary object from the heap. -/
def getA (st : MState) (i : Nat) : List (Nat × Int) := (st.ah[i]?).getD []

/-- Write an unsaturation dictionary object to the heap. -/
def setAh (st : MState) (i : Nat) (v : List (Nat × Int)) : MState :=
  { st with ah := st.ah.set i v }

/-- Per-call context of `_recurse_expand`: the current atom, the saved
object ids `aus_dct0` / `bord_dct0` / `seen_keys0` (Python saves aliases, so
ids are exactly what is saved), the saved `spin0`, `max_inc`, the neighbor
pool and the full atom-key set of the pi system. -/
structure Ctx where
  key : Nat
  sid0 : Nat
  bid0 : Nat
  aid0 : Nat
  spin0 : Int
  maxInc : Int
  npool : List Nat
  atmKeys : List Nat

/-- The type of the recursive call being threaded through the loop bodies:
arguments are key, seen id, bond-dict id, aus-dict id, spin, state. -/
abbrev RecFn := Nat → Nat → Nat → Nat → Int → MState → Option MState

/-- One neighbor selection: `bord_dct[bkey] += 1; aus_dct[key] -= 1;
aus_dct[nkey] -= 1` (lines 114-118 of `_res.py`). -/
def applyInc (key bid aid : Nat) (st : MState) (nkey : Nat) : MState :=
  let st1 := setBh st bid (bincrB (getB st bid) (mkB key nkey) 1)
  setAh st1 aid (aincr (aincr (getA st1 aid) key (-1)) nkey (-1))

/-- Allocate fresh copies of the three saved objects (the
`aus_dct0.copy()` / `bord_dct0.copy()` / `seen_keys0.copy()` branch). -/
def allocCopies (c : Ctx) (st : MState) : Nat × Nat × Nat × MState :=
  let aid := st.ah.length
  let st1 := { st with ah := st.ah ++ [getA st c.aid0] }
  let bid := st1.bh.length
  let st2 := { st1 with bh := st1.bh ++ [getB st1 c.bid0] }
  let sid := st2.sh.length
  let st3 := { st2 with sh := st2.sh ++ [getS st2 c.sid0] }
  (sid, bid, aid, st3)

/-- The `for i, nkey in enumerate(set(nkeys)): _recurse_expand(...)` loop:
recurse into each distinct chosen neighbor, threading the state. -/
def recListF (rec : RecFn) (sid bid aid : Nat) (spin : Int) :
    List Nat → MState → Option MState
  | [], st => some st
  | k :: ks, st => (rec k sid bid aid spin st).bind (recListF rec sid bid aid spin ks)

/-- Body of one iteration of the combinations loop (lines 102-139).
Returns the updated local `spin` variable together with the state, because
recording a structure reassigns `spin` to `sum(aus_dct.values())` and that
value is what later sibling iterations pass into their recursions. -/
def comboStep (rec : RecFn) (c : Ctx) (isLast : Bool) (nkeys : List Nat)
    (spin : Int) (st : MState) : Option (Int × MState) :=
  let ids := if isLast then (c.sid0, c.bid0, c.aid0, st) else allocCopies c st
  match ids with
  | (sid, bid, aid, st1) =>
    let st2 := nkeys.foldl (applyInc c.key bid aid) st1
    let st3 := setSh st2 sid (unionS (getS st2 sid) c.npool)
    if getS st3 sid = c.atmKeys then
      if getB st3 bid ∈ st3.res.map (getB st3) then some (spin, st3)
      else
        let st4 := { st3 with res := st3.res ++ [bid] }
        let spin2 := asumA (getA st4 aid)
        some (spin2, { st4 with smin := min st4.smin spin2 })
    else
      (recListF rec sid bid aid spin (sortCanon nkeys) st3).map (fun st' => (spin, st'))

/-- The `for nkeys in nkeys_lst` loop; the final element reuses the saved
objects in place, every earlier element works on fresh copies. -/
def loopCombos (rec : RecFn) (c : Ctx) :
    List (List Nat) → Int → MState → Option MState
  | [], _, st => some st
  | nk :: rest, spin, st =>
    match rest with
    | [] => (comboStep rec c true nk spin st).map (fun p => p.2)
    | _ :: _ => (comboStep rec c false nk spin st).bind (fun p => loopCombos rec c rest p.1 p.2)

/-- `list(reversed(range(max_inc + 1)))`; empty when `max_inc < 0`. -/
def incsList (maxInc : Int) : List Int :=
  ((List.range (maxInc + 1).toNat).reverse).map (fun n => (n : Int))

/-- The `for inc in incs` loop (lines 92-139): compute the tentative spin,
prune when it exceeds the current bound, otherwise run the combinations. -/
def loopIncs (rec : RecFn) (c : Ctx) : List Int → MState → Option MState
  | [], st => some st
  | inc :: rest, st =>
    let spin := c.spin0 + (c.maxInc - inc)
    if spin ≤ st.smin then
      (loopCombos rec c (dedupF (combinations inc.toNat c.npool)) spin st).bind
        (loopIncs rec c rest)
    else loopIncs rec c rest st

/-- The recursive search `_recurse_expand` of `_res.py` (lines 67-141),
parameterised by the neighbor map `nk` and the pi-system atom-key set, and
fueled: each nested recursive call consumes one unit of fuel (the source has
no explicit bound, and the termination theorem below shows fuel equal to the
atom count always suffices, which is exactly the claimed depth bound). -/
def recurse_expand (nk : Nat → List Nat) (atmKeys : List Nat) : Nat → RecFn
  | 0 => fun _ _ _ _ _ _ => none
  | fuel + 1 => fun key sid bid aid spin st =>
    let s := getS st sid
    let nset := diffS (nk key) s
    let npool := nset.foldr (fun n acc => List.replicate (agetA (getA st aid) n).toNat n ++ acc) []
    let st1 := setSh st sid (unionS s nset)
    let maxInc := agetA (getA st1 aid) key
    if npool = [] then some st1
    else loopIncs (recurse_expand nk atmKeys fuel)
      ⟨key, sid, bid, aid, spin, maxInc, npool, atmKeys⟩ (incsList maxInc) st1

/-- Molecular graph: atom keys and bonds with their current order.
Modelled from the spec: the graph abstraction of the missing `_core` module
exposes an atom key set, a bond key set with current order, and neighbor
adjacency ("a molecular graph abstraction exposing: atom key set, bond key
set with current order, and neighbor adjacency lookup"). -/
structure Graph where
  atoms : List Nat
  bonds : List ((Nat × Nat) × Nat)

/-- Normalize a stored bond to its unordered (frozenset) key. -/
def normB (b : (Nat × Nat) × Nat) : BndK × Nat := (mkB b.1.1 b.1.2, b.2)

/-- Modelled from the spec: `atom_keys(subgraph(gra, pi_keys))` — the atom
keys of the induced subgraph, i.e. the graph atoms that lie in `pi_keys`
(canonically sorted, since the source sorts them to pick the start atom). -/
def piAtomKeys (gra : Graph) (piKeys : List Nat) : List Nat :=
  sortCanon (gra.atoms.filter (fun a => decide (a ∈ piKeys)))

/-- Modelled from the spec: the bonds of the induced subgraph — bonds whose
both endpoints lie in the pi-system atom set. -/
def piBonds (gra : Graph) (piKeys : List Nat) : List (BndK × Nat) :=
  (gra.bonds.map normB).filter
    (fun b => decide (b.1.1 ∈ piAtomKeys gra piKeys) && decide (b.1.2 ∈ piAtomKeys gra piKeys))

/-- Strict lexicographic order on bond keys, used to canonicalize bond
dictionaries. -/
def bkLt (x y : BndK) : Prop := x.1 < y.1 ∨ (x.1 = y.1 ∧ x.2 < y.2)

instance : DecidablePred fun p : BndK × BndK => bkLt p.1 p.2 := fun _ => by
  unfold bkLt; infer_instance

instance (x y : BndK) : Decidable (bkLt x y) := by
  unfold bkLt; infer_instance

/-- Insert a bond entry into a key-sorted bond dictionary; an entry whose
key is already present is dropped (keys are unique in a dictionary). -/
def insB (p : BndK × Nat) : List (BndK × Nat) → List (BndK × Nat)
  | [] => [p]
  | q :: qs => if bkLt p.1 q.1 then p :: q :: qs
               else if p.1 = q.1 then q :: qs
               else q :: insB p qs

/-- Canonical key-sorted form of a bond dictionary. -/
def canonBndMap (l : List (BndK × Nat)) : List (BndK × Nat) :=
  l.foldl (fun acc p => insB p acc) []

/-- Insert an atom entry into a key-sorted unsaturation dictionary. -/
def insA (p : Nat × Int) : List (Nat × Int) → List (Nat × Int)
  | [] => [p]
  | q :: qs => if p.1 < q.1 then p :: q :: qs
               else if p.1 = q.1 then q :: qs
               else q :: insA p qs

/-- Canonical key-sorted form of an unsaturation dictionary. -/
def canonAusMap (l : List (Nat × Int)) : List (Nat × Int) :=
  l.foldl (fun acc p => insA p acc) []

/-- Modelled from the spec: `atoms_neighbor_atom_keys` of the pi subgraph —
the neighbors of `k` across the given bonds. -/
def nbrOf (bonds : List (BndK × Nat)) (k : Nat) : List Nat :=
  sortCanon (bonds.foldr
    (fun b acc => if b.1.1 = k then b.1.2 :: acc
                  else if b.1.2 = k then b.1.1 :: acc else acc) [])

/-- `pi_system_resonance_bond_orders` (lines 37-149 of `_res.py`), run to
its final machine state: build the pi subgraph, start from the lowest atom
key with only that atom seen, all increments zero, `spin_min` equal to the
sum of all supplied unsaturations, and run the recursion.  `none` models the
`sorted(...)[0]` failure on an empty pi system (fuel exhaustion cannot occur
by the termination theorem). -/
def pi_system_resonance_state (gra : Graph) (piKeys : List Nat)
    (ausIn : List (Nat × Int)) : Option MState :=
  let atmKeys := piAtomKeys gra piKeys
  let pbonds := canonBndMap (piBonds gra piKeys)
  let ausC := canonAusMap ausIn
  match atmKeys with
  | [] => none
  | start :: _ =>
    recurse_expand (nbrOf pbonds) atmKeys atmKeys.length start 0 0 0 0
      ⟨[[start]], [pbonds], [ausC], [], asumA ausC⟩

/-- The returned `bord_dcts`: the recorded bond-dictionary objects, read out
of the final heap (Python stores references, so later in-place mutations of
a recorded dictionary show up in the returned list). -/
def pi_system_resonance_bond_orders (gra : Graph) (piKeys : List Nat)
    (ausIn : List (Nat × Int)) : Option (List (List (BndK × Nat))) :=
  (pi_system_resonance_state gra piKeys ausIn).map (fun st => st.res.map (getB st))

/-! ### Specification-side notions

The following definitions follow the spec's data model (section 3) rather
than the code: the increment of a bond is its assigned order minus its
baseline order, the realized spin of an assignment is the sum over atoms of
(budget minus total increment on incident bonds), and an assignment
conserves budgets when no atom's incident increment sum exceeds its budget.
They are used to compare the code's output against the spec's claims. -/

/-- Spec section 3: total bond-order increment on bonds incident to atom
`a`, for an assignment `bord` over the baseline bond dictionary `base`. -/
def specIncidentInc (base bord : List (BndK × Nat)) (a : Nat) : Int :=
  base.foldl (fun s p =>
    if p.1.1 = a || p.1.2 = a then s + ((bgetB bord p.1 : Int) - (p.2 : Int)) else s) 0

/-- Spec section 3: realized spin of an assignment — the sum over atoms of
(budget − total increment on its incident bonds). -/
def specRealizedSpin (aus : List (Nat × Int)) (base bord : List (BndK × Nat)) : Int :=
  aus.foldl (fun s p => s + (p.2 - specIncidentInc base bord p.1)) 0

/-- Spec section 8 (budget conservation): for every atom, the sum of
increments on bonds incident to it does not exceed its original budget. -/
def specBudgetOk (aus : List (Nat × Int)) (base bord : List (BndK × Nat)) : Bool :=
  aus.all (fun p => decide (specIncidentInc base bord p.1 ≤ p.2))

/-! ### Concrete pi-systems used by the claims -/

/-- The linear 3-atom pi-system 0–1–2 with bonds {0,1} and {1,2} at order 1. -/
def graChain3 : Graph := ⟨[0, 1, 2], [((0, 1), 1), ((1, 2), 1)]⟩

/-- Its baseline bond dictionary. -/
def base3 : List (BndK × Nat) := [((0, 1), 1), ((1, 2), 1)]

/-- Budgets 2/2/2 on the 3-chain. -/
def aus222 : List (Nat × Int) := [(0, 2), (1, 2), (2, 2)]

/-- Budgets 2/1/2 on the 3-chain (the spec's Scenario B input). -/
def aus212 : List (Nat × Int) := [(0, 2), (1, 1), (2, 2)]

/-- The single bond dictionary the code returns on the 2/2/2 chain. -/
def res222 : List (BndK × Nat) := [((0, 1), 4), ((1, 2), 1)]

/-- The single bond dictionary the code returns on the 2/1/2 chain. -/
def res212 : List (BndK × Nat) := [((0, 1), 2), ((1, 2), 1)]

/-- The 3-atom star 1–0–2 (center 0) with both bonds at order 1. -/
def graStar : Graph := ⟨[0, 1, 2], [((0, 1), 1), ((0, 2), 1)]⟩

/-- Budgets 2/1/1 on the star. -/
def ausStar : List (Nat × Int) := [(0, 2), (1, 1), (2, 1)]

/-- The star budgets extended with an out-of-system atom 99 of budget 2. -/
def ausStarOut : List (Nat × Int) := [(0, 2), (1, 1), (2, 1), (99, 2)]

/-! ### `pi_system_atom_keys`

The partitioner (lines 305-318 of `_res.py`) delegates to
`dict_.keys_by_value`, `subgraph` and `connected_components_atom_keys`,
which live in modules not present in the sources; they are modelled from
the spec below. -/

/-- Modelled from the spec: `dict_.keys_by_value(atm_unsat_dct)` with the
default truthiness predicate — the keys whose value is nonzero ("atoms with
nonzero budget"). -/
def keys_by_value (m : List (Nat × Int)) : List Nat :=
  (m.filter (fun p => decide (p.2 ≠ 0))).map (fun p => p.1)

/-- The vertex set of the pi subgraph: graph atoms with nonzero recorded
budget (an atom missing from the budget map is treated as budget 0 and
excluded). -/
def piVertices (gra : Graph) (aus : List (Nat × Int)) : List Nat :=
  sortCanon (gra.atoms.filter (fun a => decide (a ∈ keys_by_value aus)))

/-- Neighbors of `a` across graph bonds both of whose endpoints lie in the
vertex list `v` (the induced-subgraph adjacency). -/
def nbrAdj (gra : Graph) (v : List Nat) (a : Nat) : List Nat :=
  sortCanon ((gra.bonds.map normB).foldr
    (fun b acc =>
      if decide (b.1.1 ∈ v) && decide (b.1.2 ∈ v) then
        (if b.1.1 = a then b.1.2 :: acc
         else if b.1.2 = a then b.1.1 :: acc else acc)
      else acc) [])

/-- One step of the connected-component traversal: add all neighbors of the
current members. -/
def expandS (nbr : Nat → List Nat) (cur : List Nat) : List Nat :=
  unionS cur (cur.foldr (fun a acc => nbr a ++ acc) [])

/-- Iterate the expansion step. -/
def iterExpand (nbr : Nat → List Nat) : Nat → List Nat → List Nat
  | 0, cur => cur
  | k + 1, cur => iterExpand nbr k (expandS nbr cur)

/-- Modelled from the spec: the connected component of `a` — the closure of
`{a}` under adjacency ("ordinary connected-components traversal"); iterating
as many times as there are vertices reaches the fixed point. -/
def compClosure (nbr : Nat → List Nat) (fuel : Nat) (a : Nat) : List Nat :=
  iterExpand nbr fuel [a]

/-- Modelled from the spec: collect the maximal connected components by
scanning the vertices and emitting the component of each vertex not already
covered. -/
def compsAux (nbr : Nat → List Nat) (fuel : Nat) :
    List Nat → List (List Nat) → List (List Nat)
  | [], acc => acc
  | a :: rest, acc =>
    if acc.any (fun c => decide (a ∈ c)) then compsAux nbr fuel rest acc
    else compsAux nbr fuel rest (acc ++ [compClosure nbr fuel a])

/-- `pi_system_atom_keys` (lines 305-318 of `_res.py`): the maximal
connected components of the subgraph induced on the atoms with nonzero
unsaturation budget. -/
def pi_system_atom_keys (gra : Graph) (aus : List (Nat × Int)) : List (List Nat) :=
  compsAux (nbrAdj gra (piVertices gra aus)) (piVertices gra aus).length
    (piVertices gra aus) []

/-- Adjacency relation of the induced pi subgraph. -/
def adjRel (gra : Graph) (v : List Nat) (a b : Nat) : Prop := b ∈ nbrAdj gra v a

/-- Reachability (graph connectivity) in the induced pi subgraph. -/
def ReachRel (gra : Graph) (v : List Nat) : Nat → Nat → Prop :=
  Relation.ReflTransGen (adjRel gra v)

/-! ### Auxiliary notions for the termination proof -/

/-- Number of pi-system atoms not yet in the seen set `s`. -/
def unseenCnt (ak : List Nat) (s : List Nat) : Nat :=
  (ak.filter (fun a => decide (a ∉ s))).length

/-- The seen-set heap only ever grows: no object is dropped and every
object's contents only gain elements. -/
def shGrows (st st' : MState) : Prop :=
  st.sh.length ≤ st'.sh.length ∧
  ∀ i, i < st.sh.length → ∀ x, x ∈ getS st i → x ∈ getS st' i

/-- A recursive call that can only grow the seen-set heap. -/
def RecMono (rec : RecFn) : Prop :=
  ∀ k sid bid aid spin st st', rec k sid bid aid spin st = some st' → shGrows st st'

/-- A recursive call that succeeds whenever it is handed a valid seen-set
object containing at least the elements of `s1`. -/
def RecOk (rec : RecFn) (s1 : List Nat) : Prop :=
  ∀ k sid bid aid spin st, sid < st.sh.length →
    (∀ x, x ∈ s1 → x ∈ getS st sid) → (rec k sid bid aid spin st).isSome

/-! ## Canonical-form lemmas

Python dictionaries and sets compare by contents, not by representation;
the lemmas below show that the canonicalization functions of the embedding
depend only on contents, which is what the determinism claim needs. -/

theorem mem_insS {x y : Nat} {l : List Nat} : x ∈ insS y l ↔ x = y ∨ x ∈ l := by
  induction l with
  | nil => simp [insS]
  | cons z zs ih =>
    by_cases h1 : y < z
    · simp [insS, h1]
    · by_cases h2 : y = z
      · subst h2
        simp only [insS, if_neg h1, if_pos rfl]
        constructor
        · exact fun h => Or.inr h
        · rintro (rfl | h)
          · exact List.mem_cons_self x zs
          · exact h
      · simp only [insS, if_neg h1, if_neg h2, List.mem_cons, ih]
        tauto

theorem sorted_insS {y : Nat} {l : List Nat} (h : l.Sorted (· < ·)) :
    (insS y l).Sorted (· < ·) := by
  induction l with
  | nil => simp [insS]
  | cons z zs ih =>
    rw [List.sorted_cons] at h
    by_cases h1 : y < z
    · rw [insS, if_pos h1, List.sorted_cons]
      refine ⟨?_, by rw [List.sorted_cons]; exact h⟩
      intro b hb
      rcases List.mem_cons.mp hb with rfl | hb
      · exact h1
      · exact lt_trans h1 (h.1 b hb)
    · by_cases h2 : y = z
      · rw [insS, if_neg h1, if_pos h2, List.sorted_cons]; exact h
      · have hzy : z < y := by omega
        rw [insS, if_neg h1, if_neg h2, List.sorted_cons]
        refine ⟨?_, ih h.2⟩
        intro b hb
        rcases mem_insS.mp hb with rfl | hb
        · exact hzy
        · exact h.1 b hb

theorem mem_unionS {x : Nat} {l e : List Nat} :
    x ∈ unionS l e ↔ x ∈ l ∨ x ∈ e := by
  induction e generalizing l with
  | nil => simp [unionS]
  | cons z zs ih =>
    show x ∈ unionS (insS z l) zs ↔ _
    rw [ih, mem_insS]
    simp only [List.mem_cons]
    tauto

theorem sorted_unionS {l e : List Nat} (h : l.Sorted (· < ·)) :
    (unionS l e).Sorted (· < ·) := by
  induction e generalizing l with
  | nil => exact h
  | cons z zs ih => exact ih (sorted_insS h)

theorem mem_sortCanon {x : Nat} {l : List Nat} : x ∈ sortCanon l ↔ x ∈ l := by
  rw [sortCanon, mem_unionS]; simp

theorem sorted_sortCanon {l : List Nat} : (sortCanon l).Sorted (· < ·) :=
  sorted_unionS (by simp)

theorem sorted_eq_of_mem_iff :
    ∀ {l1 l2 : List Nat}, l1.Sorted (· < ·) → l2.Sorted (· < ·) →
      (∀ x, x ∈ l1 ↔ x ∈ l2) → l1 = l2 := by
  intro l1
  induction l1 with
  | nil =>
    intro l2 _ _ hm
    cases l2 with
    | nil => rfl
    | cons b t2 => exact absurd ((hm b).mpr (List.mem_cons_self b t2)) (by simp)
  | cons a t1 ih =>
    intro l2 h1 h2 hm
    cases l2 with
    | nil => exact absurd ((hm a).mp (List.mem_cons_self a t1)) (by simp)
    | cons b t2 =>
      rw [List.sorted_cons] at h1 h2
      have hab : a = b := by
        rcases List.mem_cons.mp ((hm a).mp (List.mem_cons_self a t1)) with h | h
        · exact h
        · rcases List.mem_cons.mp ((hm b).mpr (List.mem_cons_self b t2)) with h' | h'
          · exact h'.symm
          · exact absurd (lt_trans (h1.1 b h') (h2.1 a h)) (lt_irrefl a)
      subst hab
      have : t1 = t2 := by
        refine ih h1.2 h2.2 ?_
        intro x
        constructor
        · intro hx
          rcases List.mem_cons.mp ((hm x).mp (List.mem_cons.mpr (Or.inr hx))) with h | h
          · exact absurd (h ▸ h1.1 x hx) (lt_irrefl a)
          · exact h
        · intro hx
          rcases List.mem_cons.mp ((hm x).mpr (List.mem_cons.mpr (Or.inr hx))) with h | h
          · exact absurd (h ▸ h2.1 x hx) (lt_irrefl a)
          · exact h
      rw [this]

theorem sortCanon_eq_of_mem_iff {l1 l2 : List Nat}
    (hm : ∀ x, x ∈ l1 ↔ x ∈ l2) : sortCanon l1 = sortCanon l2 :=
  sorted_eq_of_mem_iff sorted_sortCanon sorted_sortCanon
    (fun x => by rw [mem_sortCanon, mem_sortCanon]; exact hm x)

theorem mem_insA_of_subset {q p : Nat × Int} {l : List (Nat × Int)} :
    q ∈ insA p l → q = p ∨ q ∈ l := by
  induction l with
  | nil => simp [insA]
  | cons r rs ih =>
    by_cases h1 : p.1 < r.1
    · simp [insA, h1]
    · by_cases h2 : p.1 = r.1
      · simp only [insA, if_neg h1, if_pos h2]
        exact fun h => Or.inr h
      · simp only [insA, if_neg h1, if_neg h2, List.mem_cons]
        rintro (rfl | h)
        · exact Or.inr (Or.inl rfl)
        · rcases ih h with h | h
          · exact Or.inl h
          · exact Or.inr (Or.inr h)

theorem mem_insA_of_fresh {q p : Nat × Int} {l : List (Nat × Int)}
    (hf : p.1 ∉ l.map Prod.fst) : q ∈ insA p l ↔ q = p ∨ q ∈ l := by
  induction l with
  | nil => simp [insA]
  | cons r rs ih =>
    simp only [List.map_cons, List.mem_cons] at hf
    push_neg at hf
    by_cases h1 : p.1 < r.1
    · simp [insA, h1]
    · rw [insA, if_neg h1, if_neg hf.1]
      simp only [List.mem_cons, ih hf.2]
      tauto

theorem sortedKeys_insA {p : Nat × Int} {l : List (Nat × Int)}
    (h : l.Sorted (fun x y => x.1 < y.1)) :
    (insA p l).Sorted (fun x y => x.1 < y.1) := by
  induction l with
  | nil => simp [insA]
  | cons r rs ih =>
    rw [List.sorted_cons] at h
    by_cases h1 : p.1 < r.1
    · rw [insA, if_pos h1, List.sorted_cons]
      refine ⟨?_, by rw [List.sorted_cons]; exact h⟩
      intro b hb
      rcases List.mem_cons.mp hb with rfl | hb
      · exact h1
      · exact lt_trans h1 (h.1 b hb)
    · by_cases h2 : p.1 = r.1
      · rw [insA, if_neg h1, if_pos h2, List.sorted_cons]; exact h
      · have hrp : r.1 < p.1 := by omega
        rw [insA, if_neg h1, if_neg h2, List.sorted_cons]
        refine ⟨?_, ih h.2⟩
        intro b hb
        rcases mem_insA_of_subset hb with rfl | hb
        · exact hrp
        · exact h.1 b hb

theorem canonAusMap_fold_mem {q : Nat × Int} :
    ∀ {l acc : List (Nat × Int)}, (l.map Prod.fst).Nodup →
      (∀ k, k ∈ l.map Prod.fst → k ∉ acc.map Prod.fst) →
      (q ∈ l.foldl (fun a p => insA p a) acc ↔ q ∈ acc ∨ q ∈ l) := by
  intro l
  induction l with
  | nil => simp
  | cons p t ih =>
    intro acc hn hd
    simp only [List.map_cons, List.nodup_cons] at hn
    have hfresh : p.1 ∉ acc.map Prod.fst :=
      hd p.1 (by simp)
    have hd' : ∀ k, k ∈ t.map Prod.fst → k ∉ (insA p acc).map Prod.fst := by
      intro k hk hmem
      have : ∃ r ∈ insA p acc, r.1 = k := by
        rcases List.mem_map.mp hmem with ⟨r, hr, hrk⟩
        exact ⟨r, hr, hrk⟩
      rcases this with ⟨r, hr, hrk⟩
      rcases mem_insA_of_subset hr with rfl | hr
      · exact hn.1 (hrk ▸ hk)
      · exact hd k (List.mem_cons.mpr (Or.inr hk)) (hrk ▸ List.mem_map_of_mem Prod.fst hr)
    show q ∈ t.foldl (fun a p => insA p a) (insA p acc) ↔ _
    rw [ih hn.2 hd', mem_insA_of_fresh hfresh]
    simp only [List.mem_cons]
    tauto

theorem mem_canonAusMap {q : Nat × Int} {l : List (Nat × Int)}
    (hn : (l.map Prod.fst).Nodup) : q ∈ canonAusMap l ↔ q ∈ l := by
  rw [canonAusMap, canonAusMap_fold_mem hn (by simp)]
  simp

theorem sortedKeys_canonAusMap {l : List (Nat × Int)} :
    (canonAusMap l).Sorted (fun x y => x.1 < y.1) := by
  rw [canonAusMap]
  have : ∀ acc : List (Nat × Int), acc.Sorted (fun x y => x.1 < y.1) →
      (l.foldl (fun a p => insA p a) acc).Sorted (fun x y => x.1 < y.1) := by
    induction l with
    | nil => exact fun acc h => h
    | cons p t ih => exact fun acc h => ih (insA p acc) (sortedKeys_insA h)
  exact this [] (by simp)

theorem sortedKeys_eq_of_mem_iff :
    ∀ {l1 l2 : List (Nat × Int)}, l1.Sorted (fun x y => x.1 < y.1) →
      l2.Sorted (fun x y => x.1 < y.1) →
      (∀ q, q ∈ l1 ↔ q ∈ l2) → l1 = l2 := by
  intro l1
  induction l1 with
  | nil =>
    intro l2 _ _ hm
    cases l2 with
    | nil => rfl
    | cons b t2 => exact absurd ((hm b).mpr (List.mem_cons_self b t2)) (by simp)
  | cons a t1 ih =>
    intro l2 h1 h2 hm
    cases l2 with
    | nil => exact absurd ((hm a).mp (List.mem_cons_self a t1)) (by simp)
    | cons b t2 =>
      rw [List.sorted_cons] at h1 h2
      have hab : a = b := by
        rcases List.mem_cons.mp ((hm a).mp (List.mem_cons_self a t1)) with h | h
        · exact h
        · rcases List.mem_cons.mp ((hm b).mpr (List.mem_cons_self b t2)) with h' | h'
          · exact h'.symm
          · exact absurd (lt_trans (h1.1 b h') (h2.1 a h)) (lt_irrefl a.1)
      subst hab
      have : t1 = t2 := by
        refine ih h1.2 h2.2 ?_
        intro x
        constructor
        · intro hx
          rcases List.mem_cons.mp ((hm x).mp (List.mem_cons.mpr (Or.inr hx))) with h | h
          · exact absurd (h ▸ h1.1 x hx) (lt_irrefl a.1)
          · exact h
        · intro hx
          rcases List.mem_cons.mp ((hm x).mpr (List.mem_cons.mpr (Or.inr hx))) with h | h
          · exact absurd (h ▸ h2.1 x hx) (lt_irrefl a.1)
          · exact h
      rw [this]

theorem canonAusMap_eq_of_perm {l1 l2 : List (Nat × Int)}
    (hp : l1.Perm l2) (hn : (l1.map Prod.fst).Nodup) :
    canonAusMap l1 = canonAusMap l2 := by
  have hn2 : (l2.map Prod.fst).Nodup := (hp.map Prod.fst).nodup_iff.mp hn
  refine sortedKeys_eq_of_mem_iff sortedKeys_canonAusMap sortedKeys_canonAusMap ?_
  intro q
  rw [mem_canonAusMap hn, mem_canonAusMap hn2]
  exact hp.mem_iff

theorem bkLt_irrefl (x : BndK) : ¬ bkLt x x := by
  rcases x with ⟨a, b⟩
  rw [bkLt]
  omega

theorem bkLt_trans {x y z : BndK} (h1 : bkLt x y) (h2 : bkLt y z) : bkLt x z := by
  rcases x with ⟨a, b⟩; rcases y with ⟨c, d⟩; rcases z with ⟨e, f⟩
  rw [bkLt] at h1 h2 ⊢
  simp only at h1 h2 ⊢
  omega

theorem bkLt_total {x y : BndK} (h1 : ¬ bkLt x y) (h2 : x ≠ y) : bkLt y x := by
  rcases x with ⟨a, b⟩; rcases y with ⟨c, d⟩
  rw [bkLt] at h1 ⊢
  simp only [ne_eq, Prod.mk.injEq, not_and] at h2
  simp only at h1 ⊢
  by_cases hac : a = c
  · subst hac
    exact Or.inr ⟨rfl, by omega⟩
  · omega

theorem mem_insB_of_subset {q p : BndK × Nat} {l : List (BndK × Nat)} :
    q ∈ insB p l → q = p ∨ q ∈ l := by
  induction l with
  | nil => simp [insB]
  | cons r rs ih =>
    by_cases h1 : bkLt p.1 r.1
    · simp [insB, h1]
    · by_cases h2 : p.1 = r.1
      · simp only [insB, if_neg h1, if_pos h2]
        exact fun h => Or.inr h
      · simp only [insB, if_neg h1, if_neg h2, List.mem_cons]
        rintro (rfl | h)
        · exact Or.inr (Or.inl rfl)
        · rcases ih h with h | h
          · exact Or.inl h
          · exact Or.inr (Or.inr h)

theorem mem_insB_of_fresh {q p : BndK × Nat} {l : List (BndK × Nat)}
    (hf : p.1 ∉ l.map Prod.fst) : q ∈ insB p l ↔ q = p ∨ q ∈ l := by
  induction l with
  | nil => simp [insB]
  | cons r rs ih =>
    simp only [List.map_cons, List.mem_cons] at hf
    push_neg at hf
    by_cases h1 : bkLt p.1 r.1
    · simp [insB, h1]
    · rw [insB, if_neg h1, if_neg hf.1]
      simp only [List.mem_cons, ih hf.2]
      tauto

theorem sortedKeys_insB {p : BndK × Nat} {l : List (BndK × Nat)}
    (h : l.Sorted (fun x y => bkLt x.1 y.1)) :
    (insB p l).Sorted (fun x y => bkLt x.1 y.1) := by
  induction l with
  | nil => simp [insB]
  | cons r rs ih =>
    rw [List.sorted_cons] at h
    by_cases h1 : bkLt p.1 r.1
    · rw [insB, if_pos h1, List.sorted_cons]
      refine ⟨?_, by rw [List.sorted_cons]; exact h⟩
      intro b hb
      rcases List.mem_cons.mp hb with rfl | hb
      · exact h1
      · exact bkLt_trans h1 (h.1 b hb)
    · by_cases h2 : p.1 = r.1
      · rw [insB, if_neg h1, if_pos h2, List.sorted_cons]; exact h
      · have hrp : bkLt r.1 p.1 := bkLt_total h1 h2
        rw [insB, if_neg h1, if_neg h2, List.sorted_cons]
        refine ⟨?_, ih h.2⟩
        intro b hb
        rcases mem_insB_of_subset hb with rfl | hb
        · exact hrp
        · exact h.1 b hb

theorem canonBndMap_fold_mem {q : BndK × Nat} :
    ∀ {l acc : List (BndK × Nat)}, (l.map Prod.fst).Nodup →
      (∀ k, k ∈ l.map Prod.fst → k ∉ acc.map Prod.fst) →
      (q ∈ l.foldl (fun a p => insB p a) acc ↔ q ∈ acc ∨ q ∈ l) := by
  intro l
  induction l with
  | nil => simp
  | cons p t ih =>
    intro acc hn hd
    simp only [List.map_cons, List.nodup_cons] at hn
    have hfresh : p.1 ∉ acc.map Prod.fst := hd p.1 (by simp)
    have hd' : ∀ k, k ∈ t.map Prod.fst → k ∉ (insB p acc).map Prod.fst := by
      intro k hk hmem
      rcases List.mem_map.mp hmem with ⟨r, hr, hrk⟩
      rcases mem_insB_of_subset hr with rfl | hr
      · exact hn.1 (hrk ▸ hk)
      · exact hd k (List.mem_cons.mpr (Or.inr hk)) (hrk ▸ List.mem_map_of_mem Prod.fst hr)
    show q ∈ t.foldl (fun a p => insB p a) (insB p acc) ↔ _
    rw [ih hn.2 hd', mem_insB_of_fresh hfresh]
    simp only [List.mem_cons]
    tauto

theorem mem_canonBndMap {q : BndK × Nat} {l : List (BndK × Nat)}
    (hn : (l.map Prod.fst).Nodup) : q ∈ canonBndMap l ↔ q ∈ l := by
  rw [canonBndMap, canonBndMap_fold_mem hn (by simp)]
  simp

theorem sortedKeys_canonBndMap {l : List (BndK × Nat)} :
    (canonBndMap l).Sorted (fun x y => bkLt x.1 y.1) := by
  rw [canonBndMap]
  have : ∀ acc : List (BndK × Nat), acc.Sorted (fun x y => bkLt x.1 y.1) →
      (l.foldl (fun a p => insB p a) acc).Sorted (fun x y => bkLt x.1 y.1) := by
    induction l with
    | nil => exact fun acc h => h
    | cons p t ih => exact fun acc h => ih (insB p acc) (sortedKeys_insB h)
  exact this [] (by simp)

theorem sortedKeysB_eq_of_mem_iff :
    ∀ {l1 l2 : List (BndK × Nat)}, l1.Sorted (fun x y => bkLt x.1 y.1) →
      l2.Sorted (fun x y => bkLt x.1 y.1) →
      (∀ q, q ∈ l1 ↔ q ∈ l2) → l1 = l2 := by
  intro l1
  induction l1 with
  | nil =>
    intro l2 _ _ hm
    cases l2 with
    | nil => rfl
    | cons b t2 => exact absurd ((hm b).mpr (List.mem_cons_self b t2)) (by simp)
  | cons a t1 ih =>
    intro l2 h1 h2 hm
    cases l2 with
    | nil => exact absurd ((hm a).mp (List.mem_cons_self a t1)) (by simp)
    | cons b t2 =>
      rw [List.sorted_cons] at h1 h2
      have hab : a = b := by
        rcases List.mem_cons.mp ((hm a).mp (List.mem_cons_self a t1)) with h | h
        · exact h
        · rcases List.mem_cons.mp ((hm b).mpr (List.mem_cons_self b t2)) with h' | h'
          · exact h'.symm
          · exact absurd (bkLt_trans (h1.1 b h') (h2.1 a h)) (bkLt_irrefl a.1)
      subst hab
      have : t1 = t2 := by
        refine ih h1.2 h2.2 ?_
        intro x
        constructor
        · intro hx
          rcases List.mem_cons.mp ((hm x).mp (List.mem_cons.mpr (Or.inr hx))) with h | h
          · exact absurd (h ▸ h1.1 x hx) (bkLt_irrefl a.1)
          · exact h
        · intro hx
          rcases List.mem_cons.mp ((hm x).mpr (List.mem_cons.mpr (Or.inr hx))) with h | h
          · exact absurd (h ▸ h2.1 x hx) (bkLt_irrefl a.1)
          · exact h
      rw [this]

theorem canonBndMap_eq_of_mem_iff {l1 l2 : List (BndK × Nat)}
    (hn1 : (l1.map Prod.fst).Nodup) (hn2 : (l2.map Prod.fst).Nodup)
    (hm : ∀ q, q ∈ l1 ↔ q ∈ l2) : canonBndMap l1 = canonBndMap l2 := by
  refine sortedKeysB_eq_of_mem_iff sortedKeys_canonBndMap sortedKeys_canonBndMap ?_
  intro q
  rw [mem_canonBndMap hn1, mem_canonBndMap hn2]
  exact hm q

/-! ## Termination: the seen-set heap only grows, and fuel equal to the
atom count suffices -/

theorem getS_eq_of_sh {st st' : MState} (h : st'.sh = st.sh) (j : Nat) :
    getS st' j = getS st j := by
  rw [getS, getS, h]

theorem getS_setSh_self {st : MState} {i : Nat} {v : List Nat} (h : i < st.sh.length) :
    getS (setSh st i v) i = v := by
  simp [getS, setSh, List.getElem?_set, h]

theorem getS_setSh_ne {st : MState} {i j : Nat} {v : List Nat} (h : i ≠ j) :
    getS (setSh st i v) j = getS st j := by
  simp [getS, setSh, List.getElem?_set_ne h]

theorem setSh_sh_length (st : MState) (i : Nat) (v : List Nat) :
    (setSh st i v).sh.length = st.sh.length := List.length_set st.sh i v

theorem applyInc_sh (key bid aid : Nat) (st : MState) (n : Nat) :
    (applyInc key bid aid st n).sh = st.sh := rfl

theorem foldl_applyInc_sh (key bid aid : Nat) :
    ∀ (ks : List Nat) (st : MState), (ks.foldl (applyInc key bid aid) st).sh = st.sh := by
  intro ks
  induction ks with
  | nil => intro st; rfl
  | cons k t ih =>
    intro st
    rw [List.foldl_cons, ih, applyInc_sh]

theorem allocCopies_sh (c : Ctx) (st : MState) :
    (allocCopies c st).2.2.2.sh = st.sh ++ [getS st c.sid0] := rfl

theorem allocCopies_sid (c : Ctx) (st : MState) :
    (allocCopies c st).1 = st.sh.length := rfl

theorem shGrows_refl (st : MState) : shGrows st st :=
  ⟨le_refl _, fun _ _ _ hx => hx⟩

theorem shGrows_trans {s1 s2 s3 : MState} (h1 : shGrows s1 s2) (h2 : shGrows s2 s3) :
    shGrows s1 s3 := by
  refine ⟨le_trans h1.1 h2.1, ?_⟩
  intro i hi x hx
  exact h2.2 i (lt_of_lt_of_le hi h1.1) x (h1.2 i hi x hx)

theorem shGrows_of_sh_eq {st st' : MState} (h : st'.sh = st.sh) : shGrows st st' := by
  refine ⟨by rw [h], ?_⟩
  intro i _ x hx
  rw [getS_eq_of_sh h]
  exact hx

theorem shGrows_setSh_union (st : MState) (i : Nat) (e : List Nat) :
    shGrows st (setSh st i (unionS (getS st i) e)) := by
  refine ⟨by rw [setSh_sh_length], ?_⟩
  intro j hj x hx
  by_cases hij : j = i
  · subst hij
    rw [getS_setSh_self hj]
    exact mem_unionS.mpr (Or.inl hx)
  · rw [getS_setSh_ne (fun h => hij h.symm)]
    exact hx

theorem shGrows_append (st : MState) (v : List Nat) :
    shGrows st { st with sh := st.sh ++ [v] } := by
  refine ⟨by simp, ?_⟩
  intro i hi x hx
  have : (st.sh ++ [v])[i]? = st.sh[i]? := by
    rw [List.getElem?_append]
    simp [hi]
  simpa [getS, this] using hx

theorem shGrows_allocCopies (c : Ctx) (st : MState) :
    shGrows st (allocCopies c st).2.2.2 := by
  have h := shGrows_append st (getS st c.sid0)
  have he : (allocCopies c st).2.2.2.sh = ({ st with sh := st.sh ++ [getS st c.sid0] } : MState).sh := rfl
  exact shGrows_trans h (shGrows_of_sh_eq he.symm)

theorem recListF_mono {rec : RecFn} (hrec : RecMono rec) :
    ∀ (ks : List Nat) {sid bid aid : Nat} {spin : Int} {st st' : MState},
      recListF rec sid bid aid spin ks st = some st' → shGrows st st' := by
  intro ks
  induction ks with
  | nil =>
    intro sid bid aid spin st st' h
    rw [recListF] at h
    cases h
    exact shGrows_refl _
  | cons k t ih =>
    intro sid bid aid spin st st' h
    rw [recListF] at h
    rcases Option.bind_eq_some.mp h with ⟨mid, hmid, hrest⟩
    exact shGrows_trans (hrec _ _ _ _ _ _ _ hmid) (ih hrest)

theorem comboStep_mono {rec : RecFn} {c : Ctx} {isLast : Bool} {nkeys : List Nat}
    {spin : Int} {st : MState} {p : Int × MState} (hrec : RecMono rec)
    (h : comboStep rec c isLast nkeys spin st = some p) : shGrows st p.2 := by
  rw [comboStep] at h
  cases isLast with
  | true =>
    simp only [if_pos] at h
    set st2 := nkeys.foldl (applyInc c.key c.bid0 c.aid0) st with hst2
    set st3 := setSh st2 c.sid0 (unionS (getS st2 c.sid0) c.npool) with hst3
    have hg2 : shGrows st st2 := shGrows_of_sh_eq (foldl_applyInc_sh _ _ _ _ _)
    have hg3 : shGrows st st3 := shGrows_trans hg2 (shGrows_setSh_union st2 c.sid0 _)
    by_cases hc : getS st3 c.sid0 = c.atmKeys
    · rw [if_pos hc] at h
      by_cases hm : getB st3 c.bid0 ∈ st3.res.map (getB st3)
      · rw [if_pos hm] at h
        cases h
        exact hg3
      · rw [if_neg hm] at h
        cases h
        exact shGrows_trans hg3 (shGrows_of_sh_eq rfl)
    · rw [if_neg hc] at h
      rcases Option.map_eq_some'.mp h with ⟨st', hst', hp⟩
      rw [← hp]
      exact shGrows_trans hg3 (recListF_mono hrec _ hst')
  | false =>
    simp only [if_neg (Bool.false_ne_true)] at h
    have hga : shGrows st (allocCopies c st).2.2.2 := shGrows_allocCopies c st
    rcases halloc : allocCopies c st with ⟨sid, bid, aid, st1⟩
    rw [halloc] at h hga
    set st2 := nkeys.foldl (applyInc c.key bid aid) st1 with hst2
    set st3 := setSh st2 sid (unionS (getS st2 sid) c.npool) with hst3
    have hg2 : shGrows st st2 :=
      shGrows_trans hga (shGrows_of_sh_eq (foldl_applyInc_sh _ _ _ _ _))
    have hg3 : shGrows st st3 := shGrows_trans hg2 (shGrows_setSh_union st2 sid _)
    by_cases hc : getS st3 sid = c.atmKeys
    · rw [if_pos hc] at h
      by_cases hm : getB st3 bid ∈ st3.res.map (getB st3)
      · rw [if_pos hm] at h
        cases h
        exact hg3
      · rw [if_neg hm] at h
        cases h
        exact shGrows_trans hg3 (shGrows_of_sh_eq rfl)
    · rw [if_neg hc] at h
      rcases Option.map_eq_some'.mp h with ⟨st', hst', hp⟩
      rw [← hp]
      exact shGrows_trans hg3 (recListF_mono hrec _ hst')

theorem loopCombos_mono {rec : RecFn} {c : Ctx} (hrec : RecMono rec) :
    ∀ (lst : List (List Nat)) {spin : Int} {st st' : MState},
      loopCombos rec c lst spin st = some st' → shGrows st st' := by
  intro lst
  induction lst with
  | nil =>
    intro spin st st' h
    have he : loopCombos rec c [] spin st = some st := rfl
    rw [he] at h
    cases h
    exact shGrows_refl _
  | cons nk rest ih =>
    intro spin st st' h
    rw [loopCombos.eq_def] at h
    cases rest with
    | nil =>
      rcases Option.map_eq_some'.mp h with ⟨p, hp, hps⟩
      rw [← hps]
      exact comboStep_mono hrec hp
    | cons r2 rrest =>
      rcases Option.bind_eq_some.mp h with ⟨p, hp, hrest⟩
      exact shGrows_trans (comboStep_mono hrec hp) (ih hrest)

theorem loopIncs_mono {rec : RecFn} {c : Ctx} (hrec : RecMono rec) :
    ∀ (incs : List Int) {st st' : MState},
      loopIncs rec c incs st = some st' → shGrows st st' := by
  intro incs
  induction incs with
  | nil =>
    intro st st' h
    rw [loopIncs] at h
    cases h
    exact shGrows_refl _
  | cons inc rest ih =>
    intro st st' h
    rw [loopIncs] at h
    by_cases hsp : c.spin0 + (c.maxInc - inc) ≤ st.smin
    · rw [if_pos hsp] at h
      rcases Option.bind_eq_some.mp h with ⟨mid, hmid, hrest⟩
      exact shGrows_trans (loopCombos_mono hrec _ hmid) (ih hrest)
    · rw [if_neg hsp] at h
      exact ih h

theorem recurse_mono (nk : Nat → List Nat) (ak : List Nat) :
    ∀ fuel, RecMono (recurse_expand nk ak fuel) := by
  intro fuel
  induction fuel with
  | zero =>
    intro k sid bid aid spin st st' h
    exact absurd h (by rw [recurse_expand]; exact Option.noConfusion)
  | succ n ih =>
    intro k sid bid aid spin st st' h
    rw [recurse_expand] at h
    simp only at h
    by_cases hnp : List.foldr
        (fun n acc => List.replicate (agetA (getA st aid) n).toNat n ++ acc) []
        (diffS (nk k) (getS st sid)) = []
    · rw [if_pos hnp] at h
      cases h
      exact shGrows_setSh_union st sid _
    · rw [if_neg hnp] at h
      exact shGrows_trans (shGrows_setSh_union st sid _) (loopIncs_mono ih _ h)

theorem unseenCnt_le {ak s s' : List Nat} (hsub : ∀ x, x ∈ s → x ∈ s') :
    unseenCnt ak s' ≤ unseenCnt ak s := by
  induction ak with
  | nil => exact le_refl _
  | cons a t ih =>
    simp only [unseenCnt, List.filter_cons] at *
    by_cases h1 : a ∈ s'
    · rw [show decide (a ∉ s') = false by simp [h1]]
      by_cases h2 : a ∈ s
      · rw [show decide (a ∉ s) = false by simp [h2]]
        exact ih
      · rw [show decide (a ∉ s) = true by simp [h2]]
        simp only [List.length_cons]
        exact Nat.le_succ_of_le ih
    · have h2 : a ∉ s := fun hx => h1 (hsub a hx)
      rw [show decide (a ∉ s') = true by simp [h1],
        show decide (a ∉ s) = true by simp [h2]]
      simp only [List.length_cons]
      exact Nat.succ_le_succ ih

theorem unseenCnt_lt {ak s s' : List Nat} (hsub : ∀ x, x ∈ s → x ∈ s')
    {n : Nat} (hn : n ∈ ak) (hns : n ∉ s) (hns' : n ∈ s') :
    unseenCnt ak s' < unseenCnt ak s := by
  induction ak with
  | nil => cases hn
  | cons a t ih =>
    simp only [unseenCnt, List.filter_cons] at *
    rcases List.mem_cons.mp hn with rfl | hnt
    · rw [show decide (n ∉ s') = false by simp [hns'],
        show decide (n ∉ s) = true by simp [hns]]
      simp only [List.length_cons]
      exact Nat.lt_succ_of_le (unseenCnt_le hsub)
    · by_cases h1 : a ∈ s'
      · rw [show decide (a ∉ s') = false by simp [h1]]
        by_cases h2 : a ∈ s
        · rw [show decide (a ∉ s) = false by simp [h2]]
          exact ih hnt
        · rw [show decide (a ∉ s) = true by simp [h2]]
          simp only [List.length_cons]
          exact Nat.lt_succ_of_lt (ih hnt)
      · have h2 : a ∉ s := fun hx => h1 (hsub a hx)
        rw [show decide (a ∉ s') = true by simp [h1],
          show decide (a ∉ s) = true by simp [h2]]
        simp only [List.length_cons]
        exact Nat.succ_lt_succ (ih hnt)

theorem unseenCnt_lt_length {ak s : List Nat} {n : Nat} (hn : n ∈ ak) (hns : n ∈ s) :
    unseenCnt ak s < ak.length := by
  induction ak with
  | nil => cases hn
  | cons a t ih =>
    simp only [unseenCnt, List.filter_cons, List.length_cons] at *
    rcases List.mem_cons.mp hn with rfl | hnt
    · rw [show decide (n ∉ s) = false by simp [hns]]
      exact Nat.lt_succ_of_le (List.length_filter_le _ _)
    · by_cases h1 : a ∈ s
      · rw [show decide (a ∉ s) = false by simp [h1]]
        exact Nat.lt_succ_of_lt (ih hnt)
      · rw [show decide (a ∉ s) = true by simp [h1]]
        simp only [List.length_cons]
        exact Nat.succ_lt_succ (ih hnt)

theorem recListF_isSome {rec : RecFn} {s1 : List Nat} (hrec : RecMono rec)
    (hok : RecOk rec s1) :
    ∀ (ks : List Nat) {sid bid aid : Nat} {spin : Int} {st : MState},
      sid < st.sh.length → (∀ x, x ∈ s1 → x ∈ getS st sid) →
      (recListF rec sid bid aid spin ks st).isSome := by
  intro ks
  induction ks with
  | nil =>
    intro sid bid aid spin st _ _
    rw [recListF]
    rfl
  | cons k t ih =>
    intro sid bid aid spin st hsid hs
    rw [recListF]
    rcases Option.isSome_iff_exists.mp (hok k sid bid aid spin st hsid hs) with ⟨mid, hmid⟩
    rw [hmid, Option.some_bind]
    have hg := hrec k sid bid aid spin st mid hmid
    exact ih (lt_of_lt_of_le hsid hg.1) (fun x hx => hg.2 sid hsid x (hs x hx))

theorem comboStep_isSome {rec : RecFn} {s1 : List Nat} {c : Ctx} (isLast : Bool)
    (nkeys : List Nat) (spin : Int) {st : MState} (hrec : RecMono rec)
    (hok : RecOk rec s1) (hsid : c.sid0 < st.sh.length)
    (hs : ∀ x, x ∈ s1 → x ∈ getS st c.sid0) :
    (comboStep rec c isLast nkeys spin st).isSome := by
  rw [comboStep]
  cases isLast with
  | true =>
    simp only [if_pos]
    set st2 := nkeys.foldl (applyInc c.key c.bid0 c.aid0) st with hst2
    set st3 := setSh st2 c.sid0 (unionS (getS st2 c.sid0) c.npool) with hst3
    have hsh2 : st2.sh = st.sh := foldl_applyInc_sh _ _ _ _ _
    have hsid2 : c.sid0 < st2.sh.length := by rw [hsh2]; exact hsid
    have hs2 : ∀ x, x ∈ s1 → x ∈ getS st2 c.sid0 := by
      intro x hx
      rw [getS_eq_of_sh hsh2]
      exact hs x hx
    have hsid3 : c.sid0 < st3.sh.length := by
      rw [hst3, setSh_sh_length]
      exact hsid2
    have hs3 : ∀ x, x ∈ s1 → x ∈ getS st3 c.sid0 := by
      intro x hx
      rw [hst3, getS_setSh_self hsid2]
      exact mem_unionS.mpr (Or.inl (hs2 x hx))
    by_cases hc : getS st3 c.sid0 = c.atmKeys
    · rw [if_pos hc]
      by_cases hm : getB st3 c.bid0 ∈ st3.res.map (getB st3)
      · rw [if_pos hm]; rfl
      · rw [if_neg hm]; rfl
    · rw [if_neg hc]
      simp only [Option.isSome_map']
      exact recListF_isSome hrec hok _ hsid3 hs3
  | false =>
    simp only [if_neg (Bool.false_ne_true)]
    rcases halloc : allocCopies c st with ⟨sid, bid, aid, st1⟩
    have hsid1 : sid = st.sh.length := by
      have := allocCopies_sid c st
      rw [halloc] at this
      exact this
    have hsh1 : st1.sh = st.sh ++ [getS st c.sid0] := by
      have := allocCopies_sh c st
      rw [halloc] at this
      exact this
    have hlt1 : sid < st1.sh.length := by
      rw [hsid1, hsh1]
      simp
    have hg1 : getS st1 sid = getS st c.sid0 := by
      rw [getS, hsh1, hsid1, List.getElem?_concat_length]
      rfl
    set st2 := nkeys.foldl (applyInc c.key bid aid) st1 with hst2
    set st3 := setSh st2 sid (unionS (getS st2 sid) c.npool) with hst3
    have hsh2 : st2.sh = st1.sh := foldl_applyInc_sh _ _ _ _ _
    have hsid2 : sid < st2.sh.length := by rw [hsh2]; exact hlt1
    have hs2 : ∀ x, x ∈ s1 → x ∈ getS st2 sid := by
      intro x hx
      rw [getS_eq_of_sh hsh2, hg1]
      exact hs x hx
    have hsid3 : sid < st3.sh.length := by
      rw [hst3, setSh_sh_length]
      exact hsid2
    have hs3 : ∀ x, x ∈ s1 → x ∈ getS st3 sid := by
      intro x hx
      rw [hst3, getS_setSh_self hsid2]
      exact mem_unionS.mpr (Or.inl (hs2 x hx))
    by_cases hc : getS st3 sid = c.atmKeys
    · rw [if_pos hc]
      by_cases hm : getB st3 bid ∈ st3.res.map (getB st3)
      · rw [if_pos hm]; rfl
      · rw [if_neg hm]; rfl
    · rw [if_neg hc]
      simp only [Option.isSome_map']
      exact recListF_isSome hrec hok _ hsid3 hs3

theorem loopCombos_nil_eq (rec : RecFn) (c : Ctx) (spin : Int) (st : MState) :
    loopCombos rec c [] spin st = some st := rfl

theorem loopCombos_single_eq (rec : RecFn) (c : Ctx) (nk : List Nat) (spin : Int)
    (st : MState) :
    loopCombos rec c [nk] spin st = (comboStep rec c true nk spin st).map (fun p => p.2) := rfl

theorem loopCombos_cons2_eq (rec : RecFn) (c : Ctx) (nk r2 : List Nat)
    (rrest : List (List Nat)) (spin : Int) (st : MState) :
    loopCombos rec c (nk :: r2 :: rrest) spin st
      = (comboStep rec c false nk spin st).bind (fun p => loopCombos rec c (r2 :: rrest) p.1 p.2) := rfl

theorem loopCombos_isSome {rec : RecFn} {s1 : List Nat} {c : Ctx} (hrec : RecMono rec)
    (hok : RecOk rec s1) :
    ∀ (lst : List (List Nat)) (spin : Int) {st : MState},
      c.sid0 < st.sh.length → (∀ x, x ∈ s1 → x ∈ getS st c.sid0) →
      (loopCombos rec c lst spin st).isSome := by
  intro lst
  induction lst with
  | nil =>
    intro spin st _ _
    rw [loopCombos_nil_eq]
    rfl
  | cons nk rest ih =>
    intro spin st hsid hs
    cases rest with
    | nil =>
      rw [loopCombos_single_eq]
      simp only [Option.isSome_map']
      exact comboStep_isSome true nk spin hrec hok hsid hs
    | cons r2 rrest =>
      rw [loopCombos_cons2_eq]
      rcases Option.isSome_iff_exists.mp
        (comboStep_isSome false nk spin hrec hok hsid hs) with ⟨p, hp⟩
      rw [hp, Option.some_bind]
      have hg := comboStep_mono hrec hp
      exact ih p.1 (lt_of_lt_of_le hsid hg.1) (fun x hx => hg.2 c.sid0 hsid x (hs x hx))

theorem loopIncs_isSome {rec : RecFn} {s1 : List Nat} {c : Ctx} (hrec : RecMono rec)
    (hok : RecOk rec s1) :
    ∀ (incs : List Int) {st : MState},
      c.sid0 < st.sh.length → (∀ x, x ∈ s1 → x ∈ getS st c.sid0) →
      (loopIncs rec c incs st).isSome := by
  intro incs
  induction incs with
  | nil =>
    intro st _ _
    rw [loopIncs]
    rfl
  | cons inc rest ih =>
    intro st hsid hs
    rw [loopIncs]
    by_cases hsp : c.spin0 + (c.maxInc - inc) ≤ st.smin
    · rw [if_pos hsp]
      rcases Option.isSome_iff_exists.mp
        (loopCombos_isSome hrec hok (dedupF (combinations inc.toNat c.npool))
          (c.spin0 + (c.maxInc - inc)) hsid hs) with ⟨mid2, hmid2⟩
      rw [hmid2, Option.some_bind]
      have hg := loopCombos_mono hrec _ hmid2
      exact ih (lt_of_lt_of_le hsid hg.1) (fun x hx => hg.2 c.sid0 hsid x (hs x hx))
    · rw [if_neg hsp]
      exact ih hsid hs

theorem mem_pool_sub {x : Nat} {f : Nat → Nat} :
    ∀ {nset : List Nat},
      x ∈ nset.foldr (fun n acc => List.replicate (f n) n ++ acc) [] → x ∈ nset := by
  intro nset
  induction nset with
  | nil => simp
  | cons a t ih =>
    intro hx
    simp only [List.foldr_cons, List.mem_append] at hx
    rcases hx with hx | hx
    · rw [List.eq_of_mem_replicate hx]
      exact List.mem_cons_self a t
    · exact List.mem_cons.mpr (Or.inr (ih hx))

theorem recurse_isSome (nk : Nat → List Nat) (ak : List Nat)
    (hnk : ∀ k x, x ∈ nk k → x ∈ ak) :
    ∀ (fuel : Nat) (key sid bid aid : Nat) (spin : Int) (st : MState),
      sid < st.sh.length → unseenCnt ak (getS st sid) < fuel →
      (recurse_expand nk ak fuel key sid bid aid spin st).isSome := by
  intro fuel
  induction fuel with
  | zero =>
    intro key sid bid aid spin st _ h
    cases h
  | succ n ih =>
    intro key sid bid aid spin st hsid hcnt
    rw [recurse_expand]
    simp only
    by_cases hnp : List.foldr
        (fun m acc => List.replicate (agetA (getA st aid) m).toNat m ++ acc) []
        (diffS (nk key) (getS st sid)) = []
    · rw [if_pos hnp]
      rfl
    · rw [if_neg hnp]
      set s := getS st sid with hs
      set nset := diffS (nk key) s with hnset
      set s1 := unionS s nset with hs1
      have hwit : ∃ m, m ∈ nset ∧ m ∉ s ∧ m ∈ ak := by
        rcases List.exists_mem_of_ne_nil _ hnp with ⟨m, hm⟩
        have hmn : m ∈ nset := mem_pool_sub hm
        have := List.mem_filter.mp hmn
        refine ⟨m, hmn, ?_, hnk key m this.1⟩
        simpa using this.2
      rcases hwit with ⟨m, hmn, hms, hmak⟩
      have hsub1 : ∀ x, x ∈ s → x ∈ s1 := fun x hx => mem_unionS.mpr (Or.inl hx)
      have hcnt1 : unseenCnt ak s1 < n := by
        have h1 : unseenCnt ak s1 < unseenCnt ak s :=
          unseenCnt_lt hsub1 hmak hms (mem_unionS.mpr (Or.inr hmn))
        omega
      have hok : RecOk (recurse_expand nk ak n) s1 := by
        intro k' sid' bid' aid' spin' st' hsid' hs'
        refine ih k' sid' bid' aid' spin' st' hsid' ?_
        exact lt_of_le_of_lt (unseenCnt_le hs') hcnt1
      have hsid1 : sid < (setSh st sid (unionS s nset)).sh.length := by
        rw [setSh_sh_length]
        exact hsid
      have hgs1 : getS (setSh st sid (unionS s nset)) sid = s1 := by
        rw [getS_setSh_self hsid, hs1]
      exact loopIncs_isSome (recurse_mono nk ak n) hok _ hsid1
        (fun x hx => by rw [hgs1]; exact hx)

theorem canonBndMap_fold_sub {q : BndK × Nat} :
    ∀ {l acc : List (BndK × Nat)},
      q ∈ l.foldl (fun a p => insB p a) acc → q ∈ acc ∨ q ∈ l := by
  intro l
  induction l with
  | nil => exact fun h => Or.inl h
  | cons p t ih =>
    intro acc h
    rcases ih h with h | h
    · rcases mem_insB_of_subset h with rfl | h
      · exact Or.inr (List.mem_cons_self q t)
      · exact Or.inl h
    · exact Or.inr (List.mem_cons.mpr (Or.inr h))

theorem mem_canonBndMap_sub {q : BndK × Nat} {l : List (BndK × Nat)}
    (h : q ∈ canonBndMap l) : q ∈ l := by
  rcases canonBndMap_fold_sub h with h | h
  · cases h
  · exact h

theorem mem_nbrOf {bonds : List (BndK × Nat)} {k x : Nat} (h : x ∈ nbrOf bonds k) :
    ∃ b ∈ bonds, (b.1.1 = k ∧ b.1.2 = x) ∨ (b.1.2 = k ∧ b.1.1 = x) := by
  rw [nbrOf, mem_sortCanon] at h
  induction bonds with
  | nil => cases h
  | cons b t ih =>
    simp only [List.foldr_cons] at h
    by_cases h1 : b.1.1 = k
    · rw [if_pos h1] at h
      rcases List.mem_cons.mp h with rfl | h
      · exact ⟨b, List.mem_cons_self b t, Or.inl ⟨h1, rfl⟩⟩
      · rcases ih h with ⟨b', hb', hc⟩
        exact ⟨b', List.mem_cons.mpr (Or.inr hb'), hc⟩
    · rw [if_neg h1] at h
      by_cases h2 : b.1.2 = k
      · rw [if_pos h2] at h
        rcases List.mem_cons.mp h with rfl | h
        · exact ⟨b, List.mem_cons_self b t, Or.inr ⟨h2, rfl⟩⟩
        · rcases ih h with ⟨b', hb', hc⟩
          exact ⟨b', List.mem_cons.mpr (Or.inr hb'), hc⟩
      · rw [if_neg h2] at h
        rcases ih h with ⟨b', hb', hc⟩
        exact ⟨b', List.mem_cons.mpr (Or.inr hb'), hc⟩

theorem nbrOf_piBonds_sub (gra : Graph) (piKeys : List Nat) :
    ∀ k x, x ∈ nbrOf (canonBndMap (piBonds gra piKeys)) k → x ∈ piAtomKeys gra piKeys := by
  intro k x h
  rcases mem_nbrOf h with ⟨b, hb, hc⟩
  have hb' : b ∈ piBonds gra piKeys := mem_canonBndMap_sub hb
  have := (List.mem_filter.mp hb').2
  simp only [Bool.and_eq_true, decide_eq_true_eq] at this
  rcases hc with ⟨_, rfl⟩ | ⟨_, rfl⟩
  · exact this.2
  · exact this.1

/-- C9: the recursive search of `pi_system_resonance_bond_orders`
terminates, with recursion depth bounded by the atom count of the
pi-system: running the embedded search with fuel equal to the number of
pi-system atoms (one unit consumed per nested `_recurse_expand` call) never
exhausts the fuel, because every recursive call targets an atom that was
newly added to the seen set, so no chain of nested calls is longer than the
atom count. -/
theorem c9_recursion_depth_bounded_by_atom_count (gra : Graph) (piKeys : List Nat)
    (ausIn : List (Nat × Int)) (h : piAtomKeys gra piKeys ≠ []) :
    (pi_system_resonance_state gra piKeys ausIn).isSome := by
  rw [pi_system_resonance_state]
  rcases hak : piAtomKeys gra piKeys with _ | ⟨start, rest⟩
  · exact absurd hak h
  · refine recurse_isSome _ _ ?_ _ start 0 0 0 0 _ (by simp) ?_
    · intro k x hx
      rw [← hak]
      exact nbrOf_piBonds_sub gra piKeys k x hx
    · have hg : getS ⟨[[start]], [canonBndMap (piBonds gra piKeys)],
          [canonAusMap ausIn], [], asumA (canonAusMap ausIn)⟩ 0 = [start] := rfl
      rw [hg]
      exact unseenCnt_lt_length (List.mem_cons_self start rest)
        (List.mem_cons_self start [])

/-- Witness for C9: the search completes on the 3-chain with budgets
2/2/2. -/
theorem c9_witness :
    (pi_system_resonance_state graChain3 [0, 1, 2] aus222).isSome :=
  c9_recursion_depth_bounded_by_atom_count graChain3 [0, 1, 2] aus222 (by decide)

/-! ## Connected components: `pi_system_atom_keys` -/

theorem keys_by_value_sub {v : Nat} {aus : List (Nat × Int)}
    (h : v ∈ keys_by_value aus) : v ∈ aus.map Prod.fst := by
  rcases List.mem_map.mp h with ⟨p, hp, hpv⟩
  exact hpv ▸ List.mem_map_of_mem Prod.fst (List.mem_of_mem_filter hp)

theorem mem_keys_by_value {v : Nat} {aus : List (Nat × Int)}
    (hn : (aus.map Prod.fst).Nodup) : v ∈ keys_by_value aus ↔ agetA aus v ≠ 0 := by
  induction aus with
  | nil => simp [keys_by_value, agetA]
  | cons p t ih =>
    simp only [List.map_cons, List.nodup_cons] at hn
    rw [keys_by_value, List.filter_cons]
    by_cases hz : p.2 ≠ 0
    · rw [if_pos (by simpa using hz)]
      simp only [List.map_cons, List.mem_cons]
      rw [agetA]
      by_cases hv : p.1 = v
      · simp [hv, hz.symm ∘ Eq.symm, hz]
      · rw [if_neg hv]
        constructor
        · rintro (rfl | h)
          · exact absurd rfl hv
          · exact (ih hn.2).mp h
        · intro h
          exact Or.inr ((ih hn.2).mpr h)
    · rw [if_neg (by simpa using hz)]
      push_neg at hz
      rw [agetA]
      by_cases hv : p.1 = v
      · rw [if_pos hv]
        constructor
        · intro h
          exact absurd (hv ▸ keys_by_value_sub h) hn.1
        · intro h
          exact absurd hz h
      · rw [if_neg hv]
        exact ih hn.2

theorem mem_piVertices {v : Nat} {gra : Graph} {aus : List (Nat × Int)}
    (hn : (aus.map Prod.fst).Nodup) :
    v ∈ piVertices gra aus ↔ v ∈ gra.atoms ∧ agetA aus v ≠ 0 := by
  rw [piVertices, mem_sortCanon, List.mem_filter, decide_eq_true_eq,
    mem_keys_by_value hn]

theorem collect_elim {v : List Nat} {a x : Nat} :
    ∀ {bonds : List (BndK × Nat)},
      x ∈ bonds.foldr (fun b acc =>
        if decide (b.1.1 ∈ v) && decide (b.1.2 ∈ v) then
          (if b.1.1 = a then b.1.2 :: acc
           else if b.1.2 = a then b.1.1 :: acc else acc)
        else acc) [] →
      ∃ b ∈ bonds, b.1.1 ∈ v ∧ b.1.2 ∈ v ∧
        ((b.1.1 = a ∧ x = b.1.2) ∨ (b.1.2 = a ∧ x = b.1.1)) := by
  intro bonds
  induction bonds with
  | nil => intro h; cases h
  | cons b t ih =>
    intro h
    simp only [List.foldr_cons] at h
    by_cases hin : (decide (b.1.1 ∈ v) && decide (b.1.2 ∈ v)) = true
    · rw [if_pos hin] at h
      simp only [Bool.and_eq_true, decide_eq_true_eq] at hin
      by_cases h1 : b.1.1 = a
      · rw [if_pos h1] at h
        rcases List.mem_cons.mp h with rfl | h
        · exact ⟨b, List.mem_cons_self b t, hin.1, hin.2, Or.inl ⟨h1, rfl⟩⟩
        · rcases ih h with ⟨b', hb', hc⟩
          exact ⟨b', List.mem_cons.mpr (Or.inr hb'), hc⟩
      · rw [if_neg h1] at h
        by_cases h2 : b.1.2 = a
        · rw [if_pos h2] at h
          rcases List.mem_cons.mp h with rfl | h
          · exact ⟨b, List.mem_cons_self b t, hin.1, hin.2, Or.inr ⟨h2, rfl⟩⟩
          · rcases ih h with ⟨b', hb', hc⟩
            exact ⟨b', List.mem_cons.mpr (Or.inr hb'), hc⟩
        · rw [if_neg h2] at h
          rcases ih h with ⟨b', hb', hc⟩
          exact ⟨b', List.mem_cons.mpr (Or.inr hb'), hc⟩
    · rw [if_neg hin] at h
      rcases ih h with ⟨b', hb', hc⟩
      exact ⟨b', List.mem_cons.mpr (Or.inr hb'), hc⟩

theorem collect_intro {v : List Nat} {a : Nat} {b0 : BndK × Nat} :
    ∀ {bonds : List (BndK × Nat)}, b0 ∈ bonds → b0.1.1 ∈ v → b0.1.2 ∈ v →
      ((b0.1.1 = a → b0.1.2 ∈ bonds.foldr (fun b acc =>
          if decide (b.1.1 ∈ v) && decide (b.1.2 ∈ v) then
            (if b.1.1 = a then b.1.2 :: acc
             else if b.1.2 = a then b.1.1 :: acc else acc)
          else acc) []) ∧
       (b0.1.2 = a → b0.1.1 ∈ bonds.foldr (fun b acc =>
          if decide (b.1.1 ∈ v) && decide (b.1.2 ∈ v) then
            (if b.1.1 = a then b.1.2 :: acc
             else if b.1.2 = a then b.1.1 :: acc else acc)
          else acc) [])) := by
  intro bonds
  induction bonds with
  | nil => intro h; cases h
  | cons b t ih =>
    intro hmem hv1 hv2
    rcases List.mem_cons.mp hmem with rfl | hmem
    · constructor
      · intro h1
        simp only [List.foldr_cons]
        rw [if_pos (by simp [hv1, hv2]), if_pos h1]
        exact List.mem_cons_self _ _
      · intro h2
        simp only [List.foldr_cons]
        rw [if_pos (by simp [hv1, hv2])]
        by_cases h1 : b0.1.1 = a
        · rw [if_pos h1]
          rw [h1, ← h2]
          exact List.mem_cons_self _ _
        · rw [if_neg h1, if_pos h2]
          exact List.mem_cons_self _ _
    · have := ih hmem hv1 hv2
      constructor
      · intro h1
        have hx := this.1 h1
        simp only [List.foldr_cons]
        by_cases hin : (decide (b.1.1 ∈ v) && decide (b.1.2 ∈ v)) = true
        · rw [if_pos hin]
          by_cases hb1 : b.1.1 = a
          · rw [if_pos hb1]
            exact List.mem_cons.mpr (Or.inr hx)
          · rw [if_neg hb1]
            by_cases hb2 : b.1.2 = a
            · rw [if_pos hb2]
              exact List.mem_cons.mpr (Or.inr hx)
            · rw [if_neg hb2]
              exact hx
        · rw [if_neg hin]
          exact hx
      · intro h2
        have hx := this.2 h2
        simp only [List.foldr_cons]
        by_cases hin : (decide (b.1.1 ∈ v) && decide (b.1.2 ∈ v)) = true
        · rw [if_pos hin]
          by_cases hb1 : b.1.1 = a
          · rw [if_pos hb1]
            exact List.mem_cons.mpr (Or.inr hx)
          · rw [if_neg hb1]
            by_cases hb2 : b.1.2 = a
            · rw [if_pos hb2]
              exact List.mem_cons.mpr (Or.inr hx)
            · rw [if_neg hb2]
              exact hx
        · rw [if_neg hin]
          exact hx

theorem nbrAdj_sub {gra : Graph} {v : List Nat} {a x : Nat}
    (h : x ∈ nbrAdj gra v a) : x ∈ v := by
  rw [nbrAdj, mem_sortCanon] at h
  rcases collect_elim h with ⟨b, _, hv1, hv2, hc⟩
  rcases hc with ⟨_, rfl⟩ | ⟨_, rfl⟩
  · exact hv2
  · exact hv1

theorem nbrAdj_symm {gra : Graph} {v : List Nat} {a x : Nat}
    (h : x ∈ nbrAdj gra v a) : a ∈ nbrAdj gra v x := by
  rw [nbrAdj, mem_sortCanon] at h ⊢
  rcases collect_elim h with ⟨b, hb, hv1, hv2, hc⟩
  rcases hc with ⟨h1, rfl⟩ | ⟨h2, rfl⟩
  · exact h1 ▸ (collect_intro hb hv1 hv2).2 rfl
  · exact h2 ▸ (collect_intro hb hv1 hv2).1 rfl

theorem mem_collectNbrs {nbr : Nat → List Nat} {x : Nat} :
    ∀ {cur : List Nat},
      x ∈ cur.foldr (fun a acc => nbr a ++ acc) [] ↔ ∃ a ∈ cur, x ∈ nbr a := by
  intro cur
  induction cur with
  | nil => simp
  | cons a t ih =>
    simp only [List.foldr_cons, List.mem_append, ih, List.mem_cons]
    constructor
    · rintro (h | ⟨b, hb, hx⟩)
      · exact ⟨a, Or.inl rfl, h⟩
      · exact ⟨b, Or.inr hb, hx⟩
    · rintro ⟨b, rfl | hb, hx⟩
      · exact Or.inl hx
      · exact Or.inr ⟨b, hb, hx⟩

theorem mem_expandS {nbr : Nat → List Nat} {cur : List Nat} {x : Nat} :
    x ∈ expandS nbr cur ↔ x ∈ cur ∨ ∃ a ∈ cur, x ∈ nbr a := by
  rw [expandS, mem_unionS, mem_collectNbrs]

theorem sorted_iterExpand (nbr : Nat → List Nat) :
    ∀ (k : Nat) {cur : List Nat}, cur.Sorted (· < ·) →
      (iterExpand nbr k cur).Sorted (· < ·) := by
  intro k
  induction k with
  | zero => exact fun h => h
  | succ n ih =>
    intro cur h
    exact ih (sorted_unionS h)

theorem mem_iterExpand_of_mem (nbr : Nat → List Nat) :
    ∀ (k : Nat) {cur : List Nat} {x : Nat}, x ∈ cur → x ∈ iterExpand nbr k cur := by
  intro k
  induction k with
  | zero => exact fun h => h
  | succ n ih =>
    intro cur x h
    exact ih (mem_expandS.mpr (Or.inl h))

theorem iterExpand_sub {nbr : Nat → List Nat} {V : List Nat}
    (hcod : ∀ a x, x ∈ nbr a → x ∈ V) :
    ∀ (k : Nat) {cur : List Nat}, (∀ x, x ∈ cur → x ∈ V) →
      ∀ x, x ∈ iterExpand nbr k cur → x ∈ V := by
  intro k
  induction k with
  | zero => exact fun h => h
  | succ n ih =>
    intro cur hc
    refine ih ?_
    intro x hx
    rcases mem_expandS.mp hx with hx | ⟨a, _, hx⟩
    · exact hc x hx
    · exact hcod a x hx

theorem reach_iterExpand {nbr : Nat → List Nat} {v : Nat} :
    ∀ (k : Nat) {cur : List Nat},
      (∀ y, y ∈ cur → Relation.ReflTransGen (fun a b => b ∈ nbr a) v y) →
      ∀ x, x ∈ iterExpand nbr k cur → Relation.ReflTransGen (fun a b => b ∈ nbr a) v x := by
  intro k
  induction k with
  | zero => exact fun h => h
  | succ n ih =>
    intro cur hc
    refine ih ?_
    intro y hy
    rcases mem_expandS.mp hy with hy | ⟨a, ha, hy⟩
    · exact hc y hy
    · exact (hc a ha).tail hy

theorem iterExpand_of_fix {nbr : Nat → List Nat} {cur : List Nat}
    (hfix : expandS nbr cur = cur) : ∀ k, iterExpand nbr k cur = cur := by
  intro k
  induction k with
  | zero => rfl
  | succ n ih =>
    show iterExpand nbr n (expandS nbr cur) = cur
    rw [hfix]
    exact ih

theorem sorted_sub_length {l1 l2 : List Nat} (h1 : l1.Sorted (· < ·))
    (h2 : l2.Sorted (· < ·)) (hs : ∀ x, x ∈ l1 → x ∈ l2) :
    l1.length ≤ l2.length := by
  rw [← List.toFinset_card_of_nodup h1.nodup, ← List.toFinset_card_of_nodup h2.nodup]
  refine Finset.card_le_card ?_
  intro x hx
  rw [List.mem_toFinset] at hx ⊢
  exact hs x hx

theorem sorted_sub_eq {l1 l2 : List Nat} (h1 : l1.Sorted (· < ·))
    (h2 : l2.Sorted (· < ·)) (hs : ∀ x, x ∈ l1 → x ∈ l2)
    (hl : l2.length ≤ l1.length) : l1 = l2 := by
  have hf : l1.toFinset = l2.toFinset := by
    refine Finset.eq_of_subset_of_card_le ?_ ?_
    · intro x hx
      rw [List.mem_toFinset] at hx ⊢
      exact hs x hx
    · rw [List.toFinset_card_of_nodup h1.nodup, List.toFinset_card_of_nodup h2.nodup]
      exact hl
  refine sorted_eq_of_mem_iff h1 h2 ?_
  intro x
  rw [← List.mem_toFinset, hf, List.mem_toFinset]

theorem expandS_fix_of_iter {nbr : Nat → List Nat} {V : List Nat}
    (hV : V.Sorted (· < ·)) (hcod : ∀ a x, x ∈ nbr a → x ∈ V) :
    ∀ (k : Nat) (cur : List Nat), cur.Sorted (· < ·) → (∀ x, x ∈ cur → x ∈ V) →
      V.length ≤ k + cur.length →
      expandS nbr (iterExpand nbr k cur) = iterExpand nbr k cur := by
  intro k
  induction k with
  | zero =>
    intro cur hs hsub hlen
    have hcv : cur = V := sorted_sub_eq hs hV hsub (by simpa using hlen)
    subst hcv
    show expandS nbr cur = cur
    refine sorted_eq_of_mem_iff (sorted_unionS hs) hs ?_
    intro x
    constructor
    · intro hx
      rcases mem_expandS.mp hx with hx | ⟨a, _, hx⟩
      · exact hx
      · exact hcod a x hx
    · exact fun hx => mem_expandS.mpr (Or.inl hx)
  | succ n ih =>
    intro cur hs hsub hlen
    by_cases hfix : expandS nbr cur = cur
    · have h1 : iterExpand nbr (n + 1) cur = cur := by
        show iterExpand nbr n (expandS nbr cur) = cur
        rw [hfix]
        exact iterExpand_of_fix hfix n
      rw [h1]
      exact hfix
    · have hsub' : ∀ x, x ∈ expandS nbr cur → x ∈ V := by
        intro x hx
        rcases mem_expandS.mp hx with hx | ⟨a, _, hx⟩
        · exact hsub x hx
        · exact hcod a x hx
      have hse : (expandS nbr cur).Sorted (· < ·) := sorted_unionS hs
      have hle : cur.length ≤ (expandS nbr cur).length :=
        sorted_sub_length hs hse (fun x hx => mem_expandS.mpr (Or.inl hx))
      have hlt : cur.length < (expandS nbr cur).length := by
        rcases Nat.lt_or_ge cur.length (expandS nbr cur).length with h | h
        · exact h
        · exact absurd (sorted_sub_eq hs hse
            (fun x hx => mem_expandS.mpr (Or.inl hx)) h).symm hfix
      show expandS nbr (iterExpand nbr n (expandS nbr cur)) = _
      exact ih (expandS nbr cur) hse hsub' (by omega)

theorem sorted_compClosure (nbr : Nat → List Nat) (k v : Nat) :
    (compClosure nbr k v).Sorted (· < ·) :=
  sorted_iterExpand nbr k (by simp)

theorem mem_compClosure_self (nbr : Nat → List Nat) (k v : Nat) :
    v ∈ compClosure nbr k v :=
  mem_iterExpand_of_mem nbr k (by simp)

theorem compClosure_reach {nbr : Nat → List Nat} {k v x : Nat}
    (h : x ∈ compClosure nbr k v) :
    Relation.ReflTransGen (fun a b => b ∈ nbr a) v x := by
  refine reach_iterExpand k ?_ x h
  intro y hy
  rw [List.mem_singleton] at hy
  subst hy
  exact Relation.ReflTransGen.refl

theorem reach_compClosure {nbr : Nat → List Nat} {V : List Nat}
    (hV : V.Sorted (· < ·)) (hcod : ∀ a x, x ∈ nbr a → x ∈ V) {v x : Nat}
    (hv : v ∈ V)
    (h : Relation.ReflTransGen (fun a b => b ∈ nbr a) v x) :
    x ∈ compClosure nbr V.length v := by
  induction h with
  | refl => exact mem_compClosure_self nbr V.length v
  | tail hab hbc ih =>
    have hfix : expandS nbr (compClosure nbr V.length v) = compClosure nbr V.length v := by
      refine expandS_fix_of_iter hV hcod V.length [v] (by simp) ?_ (by simp)
      intro y hy
      rw [List.mem_singleton] at hy
      subst hy
      exact hv
    rw [← hfix]
    exact mem_expandS.mpr (Or.inr ⟨_, ih, hbc⟩)

theorem compsAux_acc_mem {nbr : Nat → List Nat} {fuel : Nat} :
    ∀ (todo : List Nat) (acc : List (List Nat)) {C : List Nat},
      C ∈ acc → C ∈ compsAux nbr fuel todo acc := by
  intro todo
  induction todo with
  | nil =>
    intro acc C h
    rw [compsAux]
    exact h
  | cons a t ih =>
    intro acc C h
    rw [compsAux]
    by_cases hcov : acc.any (fun c => decide (a ∈ c)) = true
    · rw [if_pos hcov]
      exact ih acc h
    · rw [if_neg hcov]
      exact ih (acc ++ [compClosure nbr fuel a]) (List.mem_append.mpr (Or.inl h))

theorem compsAux_sound {nbr : Nat → List Nat} {fuel : Nat} {V : List Nat} :
    ∀ (todo : List Nat) (acc : List (List Nat)),
      (∀ a, a ∈ todo → a ∈ V) →
      (∀ C, C ∈ acc → ∃ u, u ∈ V ∧ C = compClosure nbr fuel u) →
      ∀ C, C ∈ compsAux nbr fuel todo acc → ∃ u, u ∈ V ∧ C = compClosure nbr fuel u := by
  intro todo
  induction todo with
  | nil =>
    intro acc _ hacc C hC
    rw [compsAux] at hC
    exact hacc C hC
  | cons a t ih =>
    intro acc htodo hacc C hC
    rw [compsAux] at hC
    by_cases hcov : acc.any (fun c => decide (a ∈ c)) = true
    · rw [if_pos hcov] at hC
      exact ih acc (fun b hb => htodo b (List.mem_cons.mpr (Or.inr hb))) hacc C hC
    · rw [if_neg hcov] at hC
      refine ih (acc ++ [compClosure nbr fuel a])
        (fun b hb => htodo b (List.mem_cons.mpr (Or.inr hb))) ?_ C hC
      intro D hD
      rcases List.mem_append.mp hD with hD | hD
      · exact hacc D hD
      · rw [List.mem_singleton] at hD
        exact ⟨a, htodo a (List.mem_cons_self a t), hD⟩

theorem compsAux_cover {nbr : Nat → List Nat} {fuel : Nat} :
    ∀ (todo : List Nat) (acc : List (List Nat)) {v : Nat}, v ∈ todo →
      ∃ C, C ∈ compsAux nbr fuel todo acc ∧ v ∈ C := by
  intro todo
  induction todo with
  | nil =>
    intro acc v h
    cases h
  | cons a t ih =>
    intro acc v hv
    rcases List.mem_cons.mp hv with rfl | hv
    · by_cases hcov : acc.any (fun c => decide (v ∈ c)) = true
      · rcases List.any_eq_true.mp hcov with ⟨C, hC, hvC⟩
        rw [decide_eq_true_eq] at hvC
        refine ⟨C, ?_, hvC⟩
        rw [compsAux, if_pos hcov]
        exact compsAux_acc_mem t acc hC
      · refine ⟨compClosure nbr fuel v, ?_, mem_compClosure_self nbr fuel v⟩
        rw [compsAux, if_neg hcov]
        exact compsAux_acc_mem t _ (List.mem_append.mpr (Or.inr (List.mem_singleton.mpr rfl)))
    · by_cases hcov : acc.any (fun c => decide (a ∈ c)) = true
      · rcases ih acc hv with ⟨C, hC, hvC⟩
        refine ⟨C, ?_, hvC⟩
        rw [compsAux, if_pos hcov]
        exact hC
      · rcases ih (acc ++ [compClosure nbr fuel a]) hv with ⟨C, hC, hvC⟩
        refine ⟨C, ?_, hvC⟩
        rw [compsAux, if_neg hcov]
        exact hC

/-! ## Claim theorems -/

/-- C8: `pi_system_atom_keys` returns exactly the maximal connected
components of the subgraph induced on the atoms with nonzero budget: (a)
every returned atom-key set is the full reachability class of one of its
vertices within the induced subgraph (so it is connected and maximal), (b)
every graph atom with nonzero recorded budget lies in some returned set,
(c) distinct returned sets are disjoint, and (d) every atom of a returned
set is a graph atom with nonzero budget — in particular an atom omitted
from the budget map (looked-up budget 0) is excluded from every component
without an error. -/
theorem c8_partitioner_components (gra : Graph) (aus : List (Nat × Int))
    (hn : (aus.map Prod.fst).Nodup) :
    (∀ C, C ∈ pi_system_atom_keys gra aus →
       ∃ v, (v ∈ gra.atoms ∧ agetA aus v ≠ 0) ∧
         ∀ x, (x ∈ C ↔ ReachRel gra (piVertices gra aus) v x))
    ∧ (∀ v, v ∈ gra.atoms → agetA aus v ≠ 0 →
         ∃ C, C ∈ pi_system_atom_keys gra aus ∧ v ∈ C)
    ∧ (∀ C1 C2, C1 ∈ pi_system_atom_keys gra aus → C2 ∈ pi_system_atom_keys gra aus →
         C1 ≠ C2 → ∀ x, x ∈ C1 → x ∉ C2)
    ∧ (∀ C, C ∈ pi_system_atom_keys gra aus → ∀ x, x ∈ C →
         x ∈ gra.atoms ∧ agetA aus x ≠ 0) := by
  have hVs : (piVertices gra aus).Sorted (· < ·) := sorted_sortCanon
  have hcod : ∀ a x, x ∈ nbrAdj gra (piVertices gra aus) a → x ∈ piVertices gra aus :=
    fun a x h => nbrAdj_sub h
  have hsound : ∀ C, C ∈ pi_system_atom_keys gra aus →
      ∃ u, u ∈ piVertices gra aus ∧
        C = compClosure (nbrAdj gra (piVertices gra aus)) (piVertices gra aus).length u := by
    intro C hC
    rw [pi_system_atom_keys] at hC
    exact compsAux_sound (piVertices gra aus) [] (fun a ha => ha) (by simp) C hC
  have hreach_mem : ∀ {u x : Nat}, u ∈ piVertices gra aus →
      (x ∈ compClosure (nbrAdj gra (piVertices gra aus)) (piVertices gra aus).length u ↔
        ReachRel gra (piVertices gra aus) u x) := by
    intro u x hu
    constructor
    · exact compClosure_reach
    · exact reach_compClosure hVs hcod hu
  refine ⟨?_, ?_, ?_, ?_⟩
  · intro C hC
    rcases hsound C hC with ⟨u, hu, rfl⟩
    refine ⟨u, (mem_piVertices hn).mp hu, ?_⟩
    intro x
    exact hreach_mem hu
  · intro v hv1 hv2
    have hv : v ∈ piVertices gra aus := (mem_piVertices hn).mpr ⟨hv1, hv2⟩
    rw [pi_system_atom_keys]
    exact compsAux_cover (piVertices gra aus) [] hv
  · intro C1 C2 h1 h2 hne x hx1 hx2
    rcases hsound C1 h1 with ⟨u1, hu1, rfl⟩
    rcases hsound C2 h2 with ⟨u2, hu2, rfl⟩
    have hsym : Symmetric (Relation.ReflTransGen (adjRel gra (piVertices gra aus))) :=
      Relation.ReflTransGen.symmetric (fun a b h => nbrAdj_symm h)
    have hr1 : ReachRel gra (piVertices gra aus) u1 x := (hreach_mem hu1).mp hx1
    have hr2 : ReachRel gra (piVertices gra aus) u2 x := (hreach_mem hu2).mp hx2
    refine hne ?_
    refine sorted_eq_of_mem_iff (sorted_compClosure _ _ _) (sorted_compClosure _ _ _) ?_
    intro y
    rw [hreach_mem hu1, hreach_mem hu2]
    constructor
    · intro hy
      exact Relation.ReflTransGen.trans hr2 (Relation.ReflTransGen.trans (hsym hr1) hy)
    · intro hy
      exact Relation.ReflTransGen.trans hr1 (Relation.ReflTransGen.trans (hsym hr2) hy)
  · intro C hC x hx
    rcases hsound C hC with ⟨u, hu, rfl⟩
    have hxV : x ∈ piVertices gra aus := by
      refine iterExpand_sub hcod _ ?_ x hx
      intro y hy
      rw [List.mem_singleton] at hy
      subst hy
      exact hu
    exact (mem_piVertices hn).mp hxV

/-- Witness for C8: on a 4-atom graph with bonds {0,1} and {2,3} where atom
2 has budget 0, the budget-map keys are unique and atom 0 (budget 1) lies
in some returned component. -/
theorem c8_witness :
    (([(0, 1), (1, 1), (2, 0), (3, 2)] : List (Nat × Int)).map Prod.fst).Nodup
    ∧ ∃ C, C ∈ pi_system_atom_keys ⟨[0, 1, 2, 3], [((0, 1), 1), ((2, 3), 1)]⟩
        [(0, 1), (1, 1), (2, 0), (3, 2)] ∧ 0 ∈ C :=
  ⟨by decide,
    (c8_partitioner_components ⟨[0, 1, 2, 3], [((0, 1), 1), ((2, 3), 1)]⟩
      [(0, 1), (1, 1), (2, 0), (3, 2)] (by decide)).2.1 0 (by decide) (by decide)⟩

/-- C1: the claim fails on the code — there is no post-search filtering in
`pi_system_resonance_bond_orders` (the recursion's `bord_dcts` list is
returned as is, line 149), and on the 3-chain with budgets 2/2/2 the sole
returned assignment has realized spin 0 and violates the budgets (bond
{0,1} carries increment 3), while the best budget-conserving assignment
(increment 2 on each bond) realizes spin 2 and every budget-conserving
assignment realizes spin at least 2.  So the returned assignment's spin is
not the minimum spin over complete (budget-conserving) assignments. -/
theorem c1_minimality_fails_on_chain222 :
    pi_system_resonance_bond_orders graChain3 [0, 1, 2] aus222 = some [res222]
    ∧ specRealizedSpin aus222 base3 res222 = 0
    ∧ specBudgetOk aus222 base3 res222 = false
    ∧ specBudgetOk aus222 base3 [((0, 1), 2), ((1, 2), 2)] = true
    ∧ specRealizedSpin aus222 base3 [((0, 1), 2), ((1, 2), 2)] = 2
    ∧ ∀ i j : Nat, specBudgetOk aus222 base3 [((0, 1), 1 + i), ((1, 2), 1 + j)] = true →
        2 ≤ specRealizedSpin aus222 base3 [((0, 1), 1 + i), ((1, 2), 1 + j)] := by
  refine ⟨by decide, by decide, by decide, by decide, by decide, ?_⟩
  intro i j h
  simp only [specBudgetOk, specRealizedSpin, specIncidentInc, base3, aus222, bgetB,
    List.all_cons, List.all_nil, List.foldl_cons, List.foldl_nil, Bool.and_eq_true,
    decide_eq_true_eq] at h ⊢
  norm_num at h ⊢
  omega

/-- Witness for C1: the budget-conserving assignment with increment 1 on
each bond realizes spin at least 2 (it realizes exactly 2), confirming the
universally quantified minimum-spin bound at a concrete instance. -/
theorem c1_witness :
    specBudgetOk aus222 base3 [((0, 1), 1 + 1), ((1, 2), 1 + 1)] = true
    ∧ 2 ≤ specRealizedSpin aus222 base3 [((0, 1), 1 + 1), ((1, 2), 1 + 1)] :=
  ⟨by decide, (c1_minimality_fails_on_chain222).2.2.2.2.2 1 1 (by decide)⟩

/-- C2: the claim fails on the code — on a singleton pi-system (one atom of
budget 1, no bonds) the neighbor pool is empty, so the whole body of
`_recurse_expand` is skipped (`if npool:` at line 89) and nothing is ever
recorded: the function returns the empty list instead of the claimed single
all-zero-increment assignment.  Non-emptiness also fails on non-degenerate
systems: the 4-chain with budgets 1/1/1/1 returns the empty list as well
(after greedily saturating bond {0,1} the walk reaches atom 1 with no
remaining budget, chooses the empty combination, and never recurses into
the already-marked atom 2, so no branch ever completes). -/
theorem c2_singleton_returns_nothing :
    pi_system_resonance_bond_orders ⟨[0], []⟩ [0] [(0, 1)] = some []
    ∧ pi_system_resonance_bond_orders
        ⟨[0, 1, 2, 3], [((0, 1), 1), ((1, 2), 1), ((2, 3), 1)]⟩
        [0, 1, 2, 3] [(0, 1), (1, 1), (2, 1), (3, 1)] = some [] := by
  exact ⟨by decide, by decide⟩

/-- C3: counterexample — on the linear 3-atom pi-system with budgets 2/1/2
the code returns exactly one assignment, not the claimed two. -/
theorem c3_scenario_b_returns_one_not_two :
    (pi_system_resonance_bond_orders graChain3 [0, 1, 2] aus212).map List.length
      = some 1 ∧ (1 : Nat) ≠ 2 := by
  exact ⟨by decide, by decide⟩

/-- C3 (amended): on the linear 3-atom pi-system with budgets 2/1/2 the
code returns exactly one assignment — increment 1 on bond {0,1} and 0 on
bond {1,2} — and its realized spin is 3 (not 1: with budgets 2/1/2 every
increment consumes two budget units and atom 1 caps the total at one
increment, so no assignment can realize spin 1). -/
theorem c3_scenario_b_amended :
    pi_system_resonance_bond_orders graChain3 [0, 1, 2] aus212 = some [res212]
    ∧ specRealizedSpin aus212 base3 res212 = 3
    ∧ ∀ i j : Nat, specBudgetOk aus212 base3 [((0, 1), 1 + i), ((1, 2), 1 + j)] = true →
        3 ≤ specRealizedSpin aus212 base3 [((0, 1), 1 + i), ((1, 2), 1 + j)] := by
  refine ⟨by decide, by decide, ?_⟩
  intro i j h
  simp only [specBudgetOk, specRealizedSpin, specIncidentInc, base3, aus212, bgetB,
    List.all_cons, List.all_nil, List.foldl_cons, List.foldl_nil, Bool.and_eq_true,
    decide_eq_true_eq] at h ⊢
  norm_num at h ⊢
  omega

/-- Witness for the amended C3: the assignment actually returned by the
code conserves the budgets and realizes spin at least 3 (exactly 3),
instantiating the universal lower bound. -/
theorem c3_witness :
    specBudgetOk aus212 base3 [((0, 1), 1 + 1), ((1, 2), 1 + 0)] = true
    ∧ 3 ≤ specRealizedSpin aus212 base3 [((0, 1), 1 + 1), ((1, 2), 1 + 0)] :=
  ⟨by decide, (c3_scenario_b_amended).2.2 1 0 (by decide)⟩

/-- C4: the claim fails on the code — on the 3-chain with budgets 2/2/2 the
returned assignment puts increment 3 on bond {0,1}, so atom 0's incident
increment sum is 3, exceeding its budget 2 (the last-sibling storage-reuse
optimization of `_recurse_expand` mutates the very dictionaries that were
saved for backtracking, lines 103-118, so a later branch resumes from a
corrupted state and over-increments the bond). -/
theorem c4_budget_conservation_fails_on_chain222 :
    pi_system_resonance_bond_orders graChain3 [0, 1, 2] aus222 = some [res222]
    ∧ specIncidentInc base3 res222 0 = 3
    ∧ agetA aus222 0 = 2
    ∧ specBudgetOk aus222 base3 res222 = false := by
  refine ⟨by decide, by decide, by decide, by decide⟩

/-- C6: the claim fails on the code — `pi_system_resonance_bond_orders`
aliases the caller's `atm_unsat_dct` as its working budget dictionary
(line 146: `aus_dct = atm_unsat_dct`) and the recursion decrements it in
place, so after the call on the 2/2/2 chain the caller's map holds
`{0: -1, 1: -1, 2: 2}` instead of its original values. -/
theorem c6_caller_budget_map_mutated :
    (pi_system_resonance_state graChain3 [0, 1, 2] aus222).map (fun st => getA st 0)
      = some [(0, -1), (1, -1), (2, 2)]
    ∧ canonAusMap aus222 = [(0, 2), (1, 2), (2, 2)]
    ∧ [((0 : Nat), (-1 : Int)), (1, -1), (2, 2)] ≠ [((0 : Nat), (2 : Int)), (1, 2), (2, 2)] := by
  refine ⟨by decide, by decide, by decide⟩

/-- C7: determinism — the result is a function of the input contents alone.
Two calls whose graphs have the same atom set and the same bond dictionary
(up to reordering and up to the orientation of the unordered bond keys),
the same pi-key membership, and budget maps equal as maps (permuted entry
lists with unique keys) return identical results — in particular the same
set of assignments.  The embedding is a function, so sameness of
representation-canonicalized inputs is exactly what repeated calls on the
same input see. -/
theorem c7_deterministic_on_equal_inputs (g1 g2 : Graph) (pk1 pk2 : List Nat)
    (a1 a2 : List (Nat × Int))
    (hA : g1.atoms.Perm g2.atoms)
    (hB : (g1.bonds.map normB).Perm (g2.bonds.map normB))
    (hBn : ((g1.bonds.map normB).map Prod.fst).Nodup)
    (hK : ∀ k, k ∈ pk1 ↔ k ∈ pk2)
    (hU : a1.Perm a2)
    (hN : (a1.map Prod.fst).Nodup) :
    pi_system_resonance_bond_orders g1 pk1 a1 = pi_system_resonance_bond_orders g2 pk2 a2 := by
  have hAt : piAtomKeys g1 pk1 = piAtomKeys g2 pk2 := by
    refine sortCanon_eq_of_mem_iff ?_
    intro x
    simp only [List.mem_filter, decide_eq_true_eq]
    rw [hA.mem_iff, hK x]
  have hBd : canonBndMap (piBonds g1 pk1) = canonBndMap (piBonds g2 pk2) := by
    have hBn2 : ((g2.bonds.map normB).map Prod.fst).Nodup :=
      ((hB.map Prod.fst).nodup_iff).mp hBn
    refine canonBndMap_eq_of_mem_iff ?_ ?_ ?_
    · exact ((List.filter_sublist _).map Prod.fst).nodup hBn
    · exact ((List.filter_sublist _).map Prod.fst).nodup hBn2
    · intro q
      rw [piBonds, piBonds, hAt]
      simp only [List.mem_filter]
      rw [hB.mem_iff]
  have hAu : canonAusMap a1 = canonAusMap a2 := canonAusMap_eq_of_perm hU hN
  unfold pi_system_resonance_bond_orders pi_system_resonance_state
  rw [hAt, hBd, hAu]

/-- Witness for C7: on the 3-chain, with the graph's atoms and bonds listed
in a different order (and one bond key flipped), the pi keys listed with a
repetition, and the budget map entries permuted, the two calls agree. -/
theorem c7_witness :
    pi_system_resonance_bond_orders ⟨[0, 1, 2], [((0, 1), 1), ((1, 2), 1)]⟩
        [0, 1, 2] [(0, 1), (1, 1), (2, 1)]
      = pi_system_resonance_bond_orders ⟨[2, 0, 1], [((2, 1), 1), ((0, 1), 1)]⟩
        [1, 2, 0, 2] [(2, 1), (0, 1), (1, 1)] := by
  refine c7_deterministic_on_equal_inputs _ _ _ _ _ _ (by decide) (by decide) (by decide)
    ?_ (by decide) (by decide)
  intro k
  simp only [List.mem_cons, List.not_mem_nil, or_false]
  tauto

/-- C10: counterexample — on the 3-atom star with budgets 2/1/1, adding an
out-of-system entry 99 ↦ 2 to the budget map (the two maps agree on every
pi-system atom 0, 1, 2) changes the returned set: without it the call
returns one assignment, with it the call returns two different ones,
because the out-of-system budget inflates the initial `spin_min` bound and
admits extra (corrupted) branches. -/
theorem c10_out_of_system_budget_changes_result :
    (([0, 1, 2] : List Nat).all fun k => agetA ausStar k == agetA ausStarOut k) = true
    ∧ pi_system_resonance_bond_orders graStar [0, 1, 2] ausStar
        = some [[((0, 1), 2), ((0, 2), 2)]]
    ∧ pi_system_resonance_bond_orders graStar [0, 1, 2] ausStarOut
        = some [[((0, 1), 2), ((0, 2), 3)], [((0, 1), 3), ((0, 2), 2)]]
    ∧ ([((0, 1), 2), ((0, 2), 3)] : List (BndK × Nat)) ∉
        [[((0, 1), 2), ((0, 2), 2)]] := by
  refine ⟨by decide, by decide, by decide, by decide⟩

/-- C10 (amended): the returned set is **not** a function of the budget
map's restriction to the pi-system atoms — there are two budget maps that
agree on every atom of the pi-system yet produce different result sets,
because out-of-system entries enter the initial best-spin bound
(`sum(atm_unsat_dct.values())`, line 65) and every recorded spin
(`sum(aus_dct.values())`, line 129), which weakens the pruning and admits
additional branches. -/
theorem c10_amended_dependence_exists :
    ∃ aus2 l1 l2,
      (([0, 1, 2] : List Nat).all fun k => agetA ausStar k == agetA aus2 k) = true
      ∧ pi_system_resonance_bond_orders graStar [0, 1, 2] ausStar = some l1
      ∧ pi_system_resonance_bond_orders graStar [0, 1, 2] aus2 = some l2
      ∧ ∃ x, x ∈ l2 ∧ x ∉ l1 := by
  refine ⟨ausStarOut, [[((0, 1), 2), ((0, 2), 2)]],
    [[((0, 1), 2), ((0, 2), 3)], [((0, 1), 3), ((0, 2), 2)]],
    by decide, by decide, by decide,
    [((0, 1), 2), ((0, 2), 3)], by decide, by decide⟩

end AutoChem
